import Mathlib

/-!
Verification of the tecendil-backend dictionary core (index.js).

The JavaScript source is embedded shallowly: strings are Lean String values
(JavaScript strings over the characters that occur here are in 1-1
correspondence with their code point sequences), JavaScript numbers arising in
the scoring formulas are modelled as rationals (the quantities involved are
small integer ratios, exactly representable), Math.round is the
round-half-up function on rationals, and the mutable module-level state
(the short-gloss Map, the ring buffer and its cursor) is passed explicitly.
-/

namespace Tecendil

/-- Modelled from the spec: the file ascii-folder.js (required as
"./ascii-folder") is not among the provided sources.  Per section 4.1 of the
spec, fold maps accented/diacritic characters to their closest ASCII base
letter, leaves non-letters and digits unchanged, and is the identity on
already-ASCII input.  We model it as a character-wise map over a table of the
common Latin diacritic letters, the identity elsewhere. -/
def foldChar (c : Char) : Char :=
  match c with
  | 'à' | 'á' | 'â' | 'ã' | 'ä' | 'å' => 'a'
  | 'è' | 'é' | 'ê' | 'ë' => 'e'
  | 'ì' | 'í' | 'î' | 'ï' => 'i'
  | 'ò' | 'ó' | 'ô' | 'õ' | 'ö' => 'o'
  | 'ù' | 'ú' | 'û' | 'ü' => 'u'
  | 'ý' | 'ÿ' => 'y'
  | 'ñ' => 'n'
  | 'ç' => 'c'
  | 'À' | 'Á' | 'Â' | 'Ã' | 'Ä' | 'Å' => 'A'
  | 'È' | 'É' | 'Ê' | 'Ë' => 'E'
  | 'Ì' | 'Í' | 'Î' | 'Ï' => 'I'
  | 'Ò' | 'Ó' | 'Ô' | 'Õ' | 'Ö' => 'O'
  | 'Ù' | 'Ú' | 'Û' | 'Ü' => 'U'
  | 'Ý' => 'Y'
  | 'Ñ' => 'N'
  | 'Ç' => 'C'
  | _ => c

/-- Modelled from the spec: asciiFolder.fold as a character-wise map. -/
def fold (s : String) : String := String.mk (s.toList.map foldChar)

/-- JavaScript String.prototype.toLowerCase, character-wise, covering ASCII
and the Latin letters appearing in this code base (including the tengwar
marker letters). -/
def toLowerChar (c : Char) : Char :=
  match c with
  | 'A' => 'a' | 'B' => 'b' | 'C' => 'c' | 'D' => 'd' | 'E' => 'e' | 'F' => 'f'
  | 'G' => 'g' | 'H' => 'h' | 'I' => 'i' | 'J' => 'j' | 'K' => 'k' | 'L' => 'l'
  | 'M' => 'm' | 'N' => 'n' | 'O' => 'o' | 'P' => 'p' | 'Q' => 'q' | 'R' => 'r'
  | 'S' => 's' | 'T' => 't' | 'U' => 'u' | 'V' => 'v' | 'W' => 'w' | 'X' => 'x'
  | 'Y' => 'y' | 'Z' => 'z'
  | 'Ñ' => 'ñ'
  | 'Þ' => 'þ'
  | 'À' => 'à' | 'Á' => 'á' | 'Â' => 'â' | 'Ã' => 'ã' | 'Ä' => 'ä' | 'Å' => 'å'
  | 'È' => 'è' | 'É' => 'é' | 'Ê' => 'ê' | 'Ë' => 'ë'
  | 'Ì' => 'ì' | 'Í' => 'í' | 'Î' => 'î' | 'Ï' => 'ï'
  | 'Ò' => 'ò' | 'Ó' => 'ó' | 'Ô' => 'ô' | 'Õ' => 'õ' | 'Ö' => 'ö'
  | 'Ù' => 'ù' | 'Ú' => 'ú' | 'Û' => 'û' | 'Ü' => 'ü'
  | 'Ý' => 'ý' | 'Ç' => 'ç'
  | _ => c

/-- JavaScript toLowerCase on a whole string. -/
def jsToLower (s : String) : String := String.mk (s.toList.map toLowerChar)

/-- Composition asciiFolder.fold(s).toLowerCase() used throughout index.js. -/
def foldLower (s : String) : String := jsToLower (fold s)

/-- JavaScript Math.round: round half towards positive infinity. -/
def jsRound (x : ℚ) : ℤ := ⌊x + 1 / 2⌋

/-- Splits a character list at every separator character, keeping empty
segments, exactly as JavaScript String.prototype.split does for a
single-character (or single-character-class) separator. -/
def splitList (p : Char → Bool) : List Char → List (List Char)
  | [] => [[]]
  | c :: rest =>
    let r := splitList p rest
    if p c then [] :: r
    else
      match r with
      | [] => [[c]]
      | h :: t => (c :: h) :: t

/-- JavaScript s.split(sep) for a character-class separator. -/
def jsSplit (s : String) (p : Char → Bool) : List String :=
  (splitList p s.toList).map String.mk

/-- JavaScript s.startsWith(q): q is a prefix of s. -/
def jsStartsWith (s q : String) : Bool := q.toList.isPrefixOf s.toList

/-- Helper for JavaScript indexOf: does pat occur as a contiguous
subsequence of l? -/
def containsList (l pat : List Char) : Bool :=
  pat.isPrefixOf l ||
    match l with
    | [] => false
    | _ :: t => containsList t pat

/-- JavaScript s.indexOf(q) greater or equal to 0, that is: q occurs inside s. -/
def jsIncludes (s q : String) : Bool := containsList s.toList q.toList

/-- Embeds computeWordScore of index.js (lines 150-156):
exact match scores 99, a proper prefix match scores 98*len(q)/len(word),
an interior substring match scores 70*len(q)/len(word), otherwise 0. -/
def computeWordScore (word q : String) : ℚ :=
  if word = q then 99
  else if jsStartsWith word q then (98 * q.length) / word.length
  else if jsIncludes word q then (70 * q.length) / word.length
  else 0

/-- Dictionary entry as built by compileDictionaryRecursive in index.js.
Attributes read from the XML tree may be absent, hence Option String. -/
structure Entry where
  v : Option String
  index : List String
  language : Option String
  pos : String
  gloss : Option String
  stem : Option String
  notes : Option String
  tengwar : Option String
  elements : List String
deriving DecidableEq, Repr

/-- Loop body of computeScore (index.js lines 135-148): fv and fg are the
folded lower-cased headword and gloss of the entry; the accumulator holds the
running maximum word score.  When the running maximum reaches 99 (an exact
token match) the function returns 100 if the folded headword or the folded
gloss equals the query, otherwise it keeps scanning; at the end the maximum
is rounded. -/
def computeScoreGo (fv fg q : String) : List String → ℚ → ℤ
  | [], score => jsRound score
  | w :: ws, score =>
    let s := max score (computeWordScore w q)
    if s = 99 then
      if fv = q then 100
      else if fg = q then 100
      else computeScoreGo fv fg q ws s
    else computeScoreGo fv fg q ws s

/-- Embeds computeScore of index.js.  The gloss field of an entry can be
absent; folding an absent attribute is modelled as folding the empty string
(the spec makes fold total on strings and never promises anything about a
missing gloss; an absent gloss can then never equal the non-empty folded
query, matching the intent of the comparison). -/
def computeScore (e : Entry) (q : String) : ℤ :=
  computeScoreGo (foldLower (e.v.getD "")) (foldLower (e.gloss.getD "")) q e.index 0

/-- Attribute bag of an XML node, restricted to the attributes index.js
reads (all possibly absent). -/
structure XAttrs where
  v : Option String := none
  ngloss : Option String := none
  gloss : Option String := none
  speech : Option String := none
  l : Option String := none
  stem : Option String := none
  tengwar : Option String := none
deriving DecidableEq, Repr

/-- XML tree node as exposed by the xmldoc library: a name, attributes,
text value and ordered children. -/
inductive XNode where
  | node (name : String) (attr : XAttrs) (val : String) (children : List XNode)

def XNode.name : XNode → String
  | .node n _ _ _ => n

def XNode.attr : XNode → XAttrs
  | .node _ a _ _ => a

def XNode.val : XNode → String
  | .node _ _ v _ => v

def XNode.children : XNode → List XNode
  | .node _ _ _ c => c

/-- The STOP_WORDS list of index.js (lines 14-63), verbatim. -/
def STOP_WORDS : List String :=
  ["?", "[]", "[=", "&", "=", "-", "*-", "/", ">>\x7d",
   "a", "b", "c.", "am", "an", "as", "at", "be", "by", "do", "f.",
   "go", "he", "i", "if", "in", "it", "is", "m.", "me", "my", "n.",
   "no", "o", "of", "on", "or", "q.", "sg", "so", "t.", "to", "the",
   "up", "us", "we", "(lit.", "lit.", "..."]

/-- JavaScript String.prototype.substring(a, b): both indices are clamped
into [0, length] and swapped if out of order. -/
def jsSubstring (s : String) (a b : Int) : String :=
  let n : Int := s.length
  let a' : Nat := (min (max a 0) n).toNat
  let b' : Nat := (min (max b 0) n).toNat
  let lo := min a' b'
  let hi := max a' b'
  String.mk ((s.toList.drop lo).take (hi - lo))

/-- Processing of one candidate gloss word in computeIndex
(index.js lines 236-246): strip one leading punctuation character;
then, when the last character is a closing bracket, the source performs
word.substring(0, -1) (which in JavaScript is the empty string); finally
the word is kept unless it is empty, contains a digit, or is a stop word. -/
def glossWordToken (w : String) : Option String :=
  if w = "" then none
  else
    let w1 :=
      match w.toList.head? with
      | some c => if c ∈ ['*', '?', '(', '{', '['] then jsSubstring w 1 w.length else w
      | none => w
    let w2 :=
      match w1.toList.getLast? with
      | some c => if c ∈ [']', ')'] then jsSubstring w1 0 (-1) else w1
      | none => w1
    if w2 ≠ "" ∧ ¬ w2.toList.any Char.isDigit ∧ w2 ∉ STOP_WORDS then some w2
    else none

/-- Embeds computeIndex of index.js (lines 218-250): the folded lower-cased
headword split on spaces (empty pieces dropped), followed by the words of the
folded lower-cased gloss (preferring ngloss), split on commas/semicolons into
phrases and then on spaces, each word filtered through glossWordToken.
Folding an absent headword attribute is modelled as folding the empty
string. -/
def computeIndex (n : XNode) : List String :=
  let vwords :=
    (jsSplit (foldLower (n.attr.v.getD "")) (fun c => c = ' ')).filter (fun w => w ≠ "")
  let phrases :=
    jsSplit (foldLower ((n.attr.ngloss <|> n.attr.gloss).getD ""))
      (fun c => c = ',' || c = ';')
  vwords ++ phrases.flatMap
    (fun ph => (jsSplit ph (fun c => c = ' ')).filterMap glossWordToken)

/-- Embeds correctTengwar of index.js (lines 256-285): returns the headword
with at most one tengwar-hint substitution applied.  The guard !v || !tengwar
of the source returns the headword unchanged when either the headword or the
hint attribute is absent or empty. -/
def correctTengwar (n : XNode) : Option String :=
  match n.attr.v, n.attr.tengwar with
  | none, _ => none
  | some v, none => some v
  | some v, some t =>
    if v = "" ∨ t = "" then some v
    else if t = "ñ" ∨ t = "ñ-" then
      match v.toList with
      | 'n' :: rest => some (String.mk ('ñ' :: rest))
      | 'N' :: rest => some (String.mk ('Ñ' :: rest))
      | _ => some v
    else if t = "þ" ∨ t = "þ-" then
      match (jsToLower v).toList.findIdx? (fun c => c = 's') with
      | some i =>
        some (String.mk (v.toList.take i ++
          (if v.toList[i]? = some 'S' then 'Þ' else 'þ') :: v.toList.drop (i + 1)))
      | none => some v
    else if t = "ñorþus" then some "Ñorþus"
    else some v

/-- Part-of-speech values excluded from the dictionary
(index.js lines 310-319). -/
def excludedPos : List String :=
  ["suf", "pref", "phoneme", "phonetics", "phonetic-rule", "phonetic-group", "grammar"]

/-- Entry built for one qualifying word node (index.js lines 320-337). -/
def entryOf (n : XNode) : Entry :=
  { v := correctTengwar n
    index := computeIndex n
    language := n.attr.l
    pos := n.attr.speech.getD ""
    gloss := n.attr.ngloss <|> n.attr.gloss
    stem := n.attr.stem
    notes := ((n.children.find? (fun c => c.name = "notes")).map XNode.val)
    tengwar := n.attr.tengwar
    elements := (n.children.filter (fun c => c.name = "element")).filterMap
      (fun c => c.attr.v) }

mutual

/-- Embeds compileDictionaryRecursive of index.js (lines 307-345): an entry
for the node itself when it qualifies, followed by the entries of all
children in order. -/
def compileDictionaryRecursive : XNode → List Entry
  | .node nm attr val children =>
    (if nm = "word" ∧ attr.speech.getD "" ∉ excludedPos
     then [entryOf (.node nm attr val children)] else [])
      ++ compileEntriesList children

/-- Entries of a list of sibling nodes, in order (the eachChild loop of
compileDictionaryRecursive). -/
def compileEntriesList : List XNode → List Entry
  | [] => []
  | c :: cs => compileDictionaryRecursive c ++ compileEntriesList cs

end

/-- The short-gloss table: the gShortDefinitions Map of index.js, as an
insertion-ordered association list (JavaScript Map preserves insertion
order).  The key is the possibly-absent corrected headword of an entry. -/
abbrev GlossTable := List (Option String × String)

/-- JavaScript Map.prototype.get. -/
def mapGet (t : GlossTable) (k : Option String) : Option String :=
  (t.find? (fun p => p.1 = k)).map (fun p => p.2)

/-- JavaScript Map.prototype.set: updates the existing binding in place
(keeping its position in insertion order), otherwise appends a new
binding. -/
def mapSet : GlossTable → Option String → String → GlossTable
  | [], k, v => [(k, v)]
  | p :: t, k, v => if p.1 = k then (k, v) :: t else p :: mapSet t k v

/-- The per-entry update of gShortDefinitions performed by compileDictionary
(index.js lines 292-303): entries with a truthy gloss different from the
"[unglossed]" sentinel are merged into the table, concatenating with " / "
when the stored gloss differs. -/
def shortDefStep (t : GlossTable) (e : Entry) : GlossTable :=
  match e.gloss with
  | some g =>
    if g ≠ "" ∧ g ≠ "[unglossed]" then
      match mapGet t e.v with
      | none => mapSet t e.v g
      | some def0 => if def0 ≠ g then mapSet t e.v (def0 ++ " / " ++ g) else t
  else t
  | none => t

/-- Embeds compileDictionary of index.js (lines 290-305).  The module-level
gShortDefinitions Map is passed and returned explicitly. -/
def compileDictionary (root : XNode) (t0 : GlossTable) : List Entry × GlossTable :=
  let es := compileDictionaryRecursive root
  (es, es.foldl shortDefStep t0)

/-- One resolved element of a query result: { v, gloss } in matchQuery. -/
structure ElementGloss where
  v : String
  gloss : String
deriving DecidableEq, Repr

/-- Result record pushed by matchQuery: a spread copy of the entry
({...entry}, hence including the index), plus the score, with elements
replaced by { v, gloss } records. -/
structure SearchResult where
  v : Option String
  index : List String
  language : Option String
  pos : String
  gloss : Option String
  stem : Option String
  notes : Option String
  tengwar : Option String
  score : ℤ
  elements : List ElementGloss
deriving DecidableEq, Repr

/-- Embeds matchQuery of index.js (lines 74-89).  Note that the source looks
the element gloss up with gShortDefinitions.get(q) - the query string - not
with the element headword v; the embedding reproduces this faithfully. -/
def matchQuery (dict : List Entry) (table : GlossTable) (q : String) : List SearchResult :=
  dict.filterMap fun e =>
    let score := computeScore e q
    if 0 < score then
      some { v := e.v, index := e.index, language := e.language, pos := e.pos,
             gloss := e.gloss, stem := e.stem, notes := e.notes,
             tengwar := e.tengwar, score := score,
             elements := e.elements.map fun w =>
               { v := w, gloss := (mapGet table (some q)).getD "" } }
    else none

/-- The dictionary as the rest of the program sees it: loadDictionary
returns undefined when both the JSON and the XML source fail to load, so
gEldamoDictionary is either undefined or an entry list.  Iterating
for..of over undefined throws a TypeError; matchQuery on an absent
dictionary is therefore a fault, modelled in the Except monad. -/
def matchQueryOpt (dict : Option (List Entry)) (table : GlossTable) (q : String) :
    Except String (List SearchResult) :=
  match dict with
  | none => .error "TypeError: gEldamoDictionary is not iterable"
  | some d => .ok (matchQuery d table q)

/-- RING_SIZE of index.js (line 92). -/
def RING_SIZE : Nat := 40

/-- State of the ring buffer cache: the gRing array (slots hold key/value
records or are empty) and the gRingIndex cursor. -/
structure RingState where
  ring : List (Option (String × String))
  idx : Nat
deriving DecidableEq, Repr

/-- The initial state: new Array(RING_SIZE) with gRingIndex = 0. -/
def initialRing : RingState :=
  { ring := List.replicate RING_SIZE none, idx := 0 }

/-- Embeds addToRing of index.js (lines 97-100): write at the cursor slot,
advance the cursor modulo RING_SIZE. -/
def addToRing (k v : String) (s : RingState) : RingState :=
  { ring := s.ring.set s.idx (some (k, v)), idx := (s.idx + 1) % RING_SIZE }

/-- JavaScript truthiness of the loop variable result in getFromRing:
undefined and the empty string are falsy. -/
def jsTruthy : Option String → Bool
  | none => false
  | some s => s ≠ ""

/-- The relocation performed by getFromRing when the key is found at slot i
(index.js lines 110-124): copy the hit record onto the cursor slot, splice
the record out of its old position, bump the cursor by one modulo the
shortened length when the removed slot was after the cursor, and splice an
empty slot back in at the cursor. -/
def ringHit (s : RingState) (i : Nat) (e : String × String) : RingState :=
  if s.idx ≠ i then
    let r1 := s.ring.set s.idx (some e)
    let r2 := r1.eraseIdx i
    let j := if i > s.idx then (s.idx + 1) % r2.length else s.idx
    { ring := r2.insertIdx j none, idx := j }
  else
    { ring := s.ring, idx := (s.idx + 1) % s.ring.length }

/-- Loop of getFromRing (index.js lines 102-127): scan slots from index i
while the result is falsy, relocating every slot whose key matches.  The
fuel argument bounds the number of iterations; getFromRing supplies the
length of the array, which suffices because the loop increments i on every
iteration and never lengthens the array. -/
def getGo (k : String) : Nat → RingState → Option String → Nat → RingState × Option String
  | 0, s, r, _ => (s, r)
  | fuel + 1, s, r, i =>
    if jsTruthy r ∨ s.ring.length ≤ i then (s, r)
    else
      match s.ring[i]? with
      | some (some kv) =>
        if kv.1 = k then getGo k fuel (ringHit s i kv) (some kv.2) (i + 1)
        else getGo k fuel s r (i + 1)
      | _ => getGo k fuel s r (i + 1)

/-- Embeds getFromRing of index.js: returns the updated ring state and the
value found for the key, if any. -/
def getFromRing (k : String) (s : RingState) : RingState × Option String :=
  getGo k s.ring.length s none 0

/-- Follows the spec's words, for comparison with the ring buffer: the net
contract of section 4.7 says the structure realizes an LRU cache of fixed
capacity RING_SIZE.  The reference model keeps the occupied entries as a
list ordered from least to most recently used. -/
def lruSpecPut (c : List (String × String)) (k v : String) : List (String × String) :=
  let c1 := (c.filter (fun p => p.1 ≠ k)) ++ [(k, v)]
  if RING_SIZE < c1.length then c1.tail else c1

/-- Follows the spec's words: a get hit returns the stored value and resets
the entry's recency to most recently used; a miss leaves the cache
unchanged. -/
def lruSpecGet (c : List (String × String)) (k : String) :
    List (String × String) × Option String :=
  match c.find? (fun p => p.1 = k) with
  | some p => ((c.filter (fun q => q.1 ≠ k)) ++ [p], some p.2)
  | none => (c, none)

/-- Size/cursor well-formedness of the ring: exactly RING_SIZE slots and a
cursor inside the array. -/
def wellSized (s : RingState) : Prop :=
  s.ring.length = RING_SIZE ∧ s.idx < RING_SIZE

/-- The ring array determined by a recency list L (least recently used
first, most recently used last) and a cursor position: the occupied slots
sit immediately before the cursor in cyclic order, oldest first, and the
empty slots start at the cursor. -/
def ringOf (L : List (String × String)) (idx : Nat) : List (Option (String × String)) :=
  if L.length ≤ idx then
    List.replicate (idx - L.length) none ++ L.map some
      ++ List.replicate (RING_SIZE - idx) none
  else
    (L.map some).drop (L.length - idx)
      ++ List.replicate (RING_SIZE - L.length) none
      ++ (L.map some).take (L.length - idx)

/-- Abstraction relation between a ring state and a recency list: the state
is well formed with the occupied slots arranged as ringOf puts them, the
stored keys are pairwise distinct and the stored values are truthy
(non-empty), as is the case for every state reachable through the
addToRing/getFromRing interface of index.js. -/
def WFRing (s : RingState) (L : List (String × String)) : Prop :=
  s.idx < RING_SIZE ∧ L.length ≤ RING_SIZE ∧ (L.map Prod.fst).Nodup ∧
    (∀ p ∈ L, p.2 ≠ "") ∧ s.ring = ringOf L s.idx

/-- Absolute slot index of the entry with recency rank m in ringOf. -/
def hitPos (e idx m : Nat) : Nat :=
  if e ≤ idx then idx - e + m
  else if m < e - idx then idx + (RING_SIZE - e) + m
  else m - (e - idx)

/-- Cursor position after a getFromRing hit at recency rank m: the source
leaves the cursor alone when the hit slot precedes it, advances it modulo
RING_SIZE when the hit is exactly at the cursor, and advances it modulo the
spliced length RING_SIZE - 1 when the hit slot follows it. -/
def newIdx (e idx m : Nat) : Nat :=
  if hitPos e idx m < idx then idx
  else if hitPos e idx m = idx then (idx + 1) % RING_SIZE
  else (idx + 1) % (RING_SIZE - 1)

/-- Recency list after a getFromRing hit at rank m: the hit entry moves to
the most-recently-used end; when the ring is full and the hit is not
already at the cursor, the relocation of the source additionally destroys
the entry stored at the cursor slot, which is the least recently used. -/
def promoteIdx (L : List (String × String)) (m : Nat) : List (String × String) :=
  (if L.length = RING_SIZE ∧ 0 < m then (L.eraseIdx 0).eraseIdx (m - 1)
   else L.eraseIdx m) ++ (L[m]?).toList

/-- Recency list after a getFromRing hit on entry e, phrased by value: e is
moved to the most-recently-used end and, when the ring is full and e is not
the current least-recently-used entry, the least-recently-used entry is
destroyed. -/
def promote (L : List (String × String)) (e : String × String) : List (String × String) :=
  ((if L.length = RING_SIZE ∧ L.head? ≠ some e then L.tail else L).erase e) ++ [e]

/-- Entry gloss validity test of compileDictionary (index.js line 293):
the gloss is truthy and differs from the "[unglossed]" sentinel. -/
def validGloss (e : Entry) : Bool :=
  match e.gloss with
  | some g => g ≠ "" && g ≠ "[unglossed]"
  | none => false

/-- Concrete dictionary entry whose only token is "aragorn". -/
def aragornEntry : Entry :=
  { v := some "aragorn", index := ["aragorn"], language := none, pos := "",
    gloss := some "king", stem := none, notes := none, tengwar := none,
    elements := [] }

/-- Concrete entry with an exact token match for "hello" whose folded
headword and gloss both differ from "hello". -/
def helloEntry : Entry :=
  { v := some "hello world", index := ["hello", "world"], language := none,
    pos := "", gloss := some "greeting", stem := none, notes := none,
    tengwar := none, elements := [] }

/-- Concrete entry with one sub-element whose headword is "el". -/
def eldaEntry : Entry :=
  { v := some "elda", index := ["elda"], language := none, pos := "",
    gloss := some "star-person", stem := none, notes := none, tengwar := none,
    elements := ["el"] }

/-- Word node whose gloss is the single word "word)". -/
def parenNode : XNode :=
  .node "word" { v := some "x", gloss := some "word)" } "" []

/-- Two word nodes sharing the headword "a" with distinct glosses. -/
def dupGlossRoot : XNode :=
  .node "root" {} ""
    [.node "word" { v := some "a", gloss := some "g1" } "" [],
     .node "word" { v := some "a", gloss := some "g2" } "" []]

/-- Two word nodes with distinct headwords. -/
def uniqGlossRoot : XNode :=
  .node "root" {} ""
    [.node "word" { v := some "a", gloss := some "g1" } "" [],
     .node "word" { v := some "b", gloss := some "g2" } "" []]

/-- Ring state after inserting the forty distinct keys k0 .. k39. -/
def ringAfter40Puts : RingState :=
  (List.range RING_SIZE).foldl
    (fun s i => addToRing ("k" ++ toString i) ("v" ++ toString i) s) initialRing

/-- Reference LRU cache state after inserting the same forty keys. -/
def lruAfter40Puts : List (String × String) :=
  (List.range RING_SIZE).foldl
    (fun c i => lruSpecPut c ("k" ++ toString i) ("v" ++ toString i)) []

/-! Helper lemmas about the scoring functions. -/

theorem jsRound_nonneg {x : ℚ} (h : 0 ≤ x) : 0 ≤ jsRound x := by
  unfold jsRound
  exact Int.le_floor.mpr (by push_cast; linarith)

theorem floor_one_half : ⌊(1 / 2 : ℚ)⌋ = 0 := by
  rw [Int.floor_eq_zero_iff]
  constructor <;> norm_num

theorem jsRound_intCast (n : ℤ) : jsRound (n : ℚ) = n := by
  unfold jsRound
  rw [add_comm, Int.floor_add_int, floor_one_half]
  omega

theorem jsRound_le_of_le {x : ℚ} {n : ℤ} (h : x ≤ (n : ℚ)) : jsRound x ≤ n := by
  have h1 : jsRound x ≤ jsRound (n : ℚ) := by
    unfold jsRound
    exact Int.floor_le_floor (by linarith)
  rw [jsRound_intCast] at h1
  exact h1

theorem isPrefixOf_length_le :
    ∀ (p l : List Char), p.isPrefixOf l = true → p.length ≤ l.length := by
  intro p
  induction p with
  | nil => intro l _; simp
  | cons a p ih =>
    intro l h
    cases l with
    | nil => simp [List.isPrefixOf] at h
    | cons b l =>
      simp only [List.isPrefixOf, Bool.and_eq_true, beq_iff_eq] at h
      simpa using ih l h.2

theorem isPrefixOf_eq_of_length_eq :
    ∀ (p l : List Char), p.isPrefixOf l = true → p.length = l.length → p = l := by
  intro p
  induction p with
  | nil =>
    intro l _ hlen
    exact (List.length_eq_zero.mp hlen.symm).symm
  | cons a p ih =>
    intro l h hlen
    cases l with
    | nil => simp [List.isPrefixOf] at h
    | cons b l =>
      simp only [List.isPrefixOf, Bool.and_eq_true, beq_iff_eq] at h
      simp only [List.length_cons, Nat.succ.injEq] at hlen
      rw [h.1, ih l h.2 hlen]

theorem containsList_length_le :
    ∀ (l pat : List Char), containsList l pat = true → pat.length ≤ l.length := by
  intro l
  induction l with
  | nil =>
    intro pat h
    unfold containsList at h
    simp only [Bool.or_eq_true] at h
    rcases h with h | h
    · exact isPrefixOf_length_le _ _ h
    · simp at h
  | cons a t ih =>
    intro pat h
    unfold containsList at h
    simp only [Bool.or_eq_true] at h
    rcases h with h | h
    · exact isPrefixOf_length_le _ _ h
    · have := ih pat h
      simp only [List.length_cons]
      omega

theorem string_eq_of_toList_eq {s t : String} (h : s.toList = t.toList) : s = t := by
  cases s with
  | mk d1 =>
    cases t with
    | mk d2 =>
      exact congrArg String.mk (by simpa [String.toList] using h)

theorem string_length_eq_toList_length (s : String) : s.length = s.toList.length := rfl

theorem computeWordScore_nonneg (w q : String) : 0 ≤ computeWordScore w q := by
  unfold computeWordScore
  split_ifs <;> positivity

theorem computeWordScore_le_98_of_ne {w q : String} (h : w ≠ q) :
    computeWordScore w q ≤ 98 := by
  unfold computeWordScore
  rw [if_neg h]
  split_ifs with h1 h2
  · have hle : q.length ≤ w.length := by
      rw [string_length_eq_toList_length, string_length_eq_toList_length]
      exact isPrefixOf_length_le _ _ h1
    rcases Nat.eq_zero_or_pos w.length with hw | hw
    · exfalso
      apply h
      apply string_eq_of_toList_eq
      have hw' : w.toList.length = 0 := by
        rw [← string_length_eq_toList_length]; omega
      have hq' : q.toList.length = 0 := by
        rw [← string_length_eq_toList_length]; omega
      rw [List.length_eq_zero.mp hw', List.length_eq_zero.mp hq']
    · rw [div_le_iff₀ (by positivity)]
      have : (q.length : ℚ) ≤ (w.length : ℚ) := by exact_mod_cast hle
      nlinarith
  · have hle : q.length ≤ w.length := by
      rw [string_length_eq_toList_length, string_length_eq_toList_length]
      exact containsList_length_le _ _ h2
    rcases Nat.eq_zero_or_pos w.length with hw | hw
    · exfalso
      apply h
      apply string_eq_of_toList_eq
      have hw' : w.toList.length = 0 := by
        rw [← string_length_eq_toList_length]; omega
      have hq' : q.toList.length = 0 := by
        rw [← string_length_eq_toList_length]; omega
      rw [List.length_eq_zero.mp hw', List.length_eq_zero.mp hq']
    · rw [div_le_iff₀ (by positivity)]
      have : (q.length : ℚ) ≤ (w.length : ℚ) := by exact_mod_cast hle
      nlinarith
  · norm_num

theorem computeWordScore_le_99 (w q : String) : computeWordScore w q ≤ 99 := by
  by_cases h : w = q
  · unfold computeWordScore
    rw [if_pos h]
  · linarith [computeWordScore_le_98_of_ne h]

theorem computeWordScore_eq_99_iff (w q : String) :
    computeWordScore w q = 99 ↔ w = q := by
  constructor
  · intro h
    by_contra hne
    have := computeWordScore_le_98_of_ne hne
    rw [h] at this
    norm_num at this
  · intro h
    unfold computeWordScore
    rw [if_pos h]

theorem computeScoreGo_bounds {fv fg q : String} :
    ∀ (ws : List String), (∀ w ∈ ws, w ≠ q) → ∀ s : ℚ, 0 ≤ s → s ≤ 98 →
      0 ≤ computeScoreGo fv fg q ws s ∧ computeScoreGo fv fg q ws s ≤ 98 := by
  intro ws
  induction ws with
  | nil =>
    intro _ s h0 h98
    exact ⟨jsRound_nonneg h0, jsRound_le_of_le (by exact_mod_cast h98)⟩
  | cons w ws ih =>
    intro hws s h0 h98
    have hw : w ≠ q := hws w (by simp)
    have hcw := computeWordScore_le_98_of_ne hw
    have hcw0 := computeWordScore_nonneg w q
    have hmax : max s (computeWordScore w q) ≤ 98 := by
      exact max_le h98 hcw
    have hmax0 : 0 ≤ max s (computeWordScore w q) := le_max_of_le_left h0
    have hne : ¬ max s (computeWordScore w q) = 99 := by
      intro h; rw [h] at hmax; norm_num at hmax
    show 0 ≤ computeScoreGo fv fg q (w :: ws) s ∧ _
    unfold computeScoreGo
    simp only [hne, if_false]
    exact ih (fun x hx => hws x (by simp [hx])) _ hmax0 hmax

theorem computeScoreGo_at_99 {fv fg q : String} (hfv : fv ≠ q) (hfg : fg ≠ q) :
    ∀ (ws : List String), computeScoreGo fv fg q ws 99 = 99 := by
  intro ws
  induction ws with
  | nil =>
    show jsRound 99 = 99
    exact_mod_cast jsRound_intCast 99
  | cons w ws ih =>
    have hmax : max (99 : ℚ) (computeWordScore w q) = 99 :=
      max_eq_left (computeWordScore_le_99 w q)
    unfold computeScoreGo
    rw [hmax, if_pos rfl, if_neg hfv, if_neg hfg]
    exact ih

theorem computeScoreGo_exact {fv fg q : String} :
    ∀ (ws : List String), (∃ w ∈ ws, w = q) → ∀ s : ℚ, 0 ≤ s → s ≤ 99 →
      computeScoreGo fv fg q ws s =
        if fv = q then 100 else if fg = q then 100 else 99 := by
  intro ws
  induction ws with
  | nil => intro hex; simp at hex
  | cons w ws ih =>
    intro hex s h0 h99
    by_cases hw : w = q
    · have hcw : computeWordScore w q = 99 := (computeWordScore_eq_99_iff w q).mpr hw
      have hmax : max s (computeWordScore w q) = 99 := by
        rw [hcw]; exact max_eq_right h99
      unfold computeScoreGo
      rw [hmax, if_pos rfl]
      by_cases hfv : fv = q
      · rw [if_pos hfv, if_pos hfv]
      · rw [if_neg hfv, if_neg hfv]
        by_cases hfg : fg = q
        · rw [if_pos hfg, if_pos hfg]
        · rw [if_neg hfg, if_neg hfg]
          exact computeScoreGo_at_99 hfv hfg ws
    · have hex' : ∃ x ∈ ws, x = q := by
        rcases hex with ⟨x, hx, hxq⟩
        rcases List.mem_cons.mp hx with h | h
        · exact absurd (h ▸ hxq) hw
        · exact ⟨x, h, hxq⟩
      have hcw := computeWordScore_le_98_of_ne hw
      have hcw0 := computeWordScore_nonneg w q
      have hmax0 : 0 ≤ max s (computeWordScore w q) := le_max_of_le_left h0
      have hmax99 : max s (computeWordScore w q) ≤ 99 := max_le h99 (by linarith)
      unfold computeScoreGo
      by_cases hs : max s (computeWordScore w q) = 99
      · rw [if_pos hs]
        by_cases hfv : fv = q
        · rw [if_pos hfv, if_pos hfv]
        · rw [if_neg hfv, if_neg hfv]
          by_cases hfg : fg = q
          · rw [if_pos hfg, if_pos hfg]
          · rw [if_neg hfg, if_neg hfg]
            rw [hs]
            exact computeScoreGo_at_99 hfv hfg ws
      · rw [if_neg hs]
        exact ih hex' _ hmax0 hmax99

theorem computeScore_exact (e : Entry) (q : String) (hex : ∃ w ∈ e.index, w = q) :
    computeScore e q =
      if foldLower (e.v.getD "") = q then 100
      else if foldLower (e.gloss.getD "") = q then 100 else 99 :=
  computeScoreGo_exact e.index hex 0 le_rfl (by norm_num)

theorem computeScore_no_exact_bounds (e : Entry) (q : String)
    (h : ∀ w ∈ e.index, w ≠ q) :
    0 ≤ computeScore e q ∧ computeScore e q ≤ 98 :=
  computeScoreGo_bounds e.index h 0 le_rfl (by norm_num)

/-- Claim C1, counterexample: the entry with token list [hello, world],
headword "hello world" and gloss "greeting" has an exact token match for the
query "hello", yet computeScore returns 99, not 100.  The exact token match
therefore neither yields 100 nor short-circuits the entry to 100. -/
theorem exact_token_match_scores_99_not_100 :
    (∃ w ∈ helloEntry.index, w = "hello") ∧ computeScore helloEntry "hello" = 99 := by
  constructor
  · decide
  · rw [computeScore_exact helloEntry "hello" (by decide),
      if_neg (by decide), if_neg (by decide)]

/-- Claim C1 (amended): computeScore returns 100 if and only if some token
equals the folded query and, in addition, the folded lower-cased headword or
the folded lower-cased gloss equals the query; an exact token match without
such a headword/gloss match yields exactly 99; and when no token equals the
query the score is strictly less than 100 (in fact at most 98). -/
theorem score100_iff_exact_and_folded (e : Entry) (q : String) :
    (computeScore e q = 100 ↔
      ((∃ w ∈ e.index, w = q) ∧
        (foldLower (e.v.getD "") = q ∨ foldLower (e.gloss.getD "") = q))) ∧
    ((∃ w ∈ e.index, w = q) → foldLower (e.v.getD "") ≠ q →
      foldLower (e.gloss.getD "") ≠ q → computeScore e q = 99) ∧
    ((∀ w ∈ e.index, w ≠ q) → computeScore e q < 100) := by
  by_cases hex : ∃ w ∈ e.index, w = q
  · have hval := computeScore_exact e q hex
    refine ⟨?_, ?_, ?_⟩
    · constructor
      · intro h100
        refine ⟨hex, ?_⟩
        by_contra hcon
        push_neg at hcon
        rw [hval, if_neg hcon.1, if_neg hcon.2] at h100
        norm_num at h100
      · rintro ⟨-, hor⟩
        rcases hor with hv | hg
        · rw [hval, if_pos hv]
        · rw [hval]
          split_ifs <;> rfl
    · intro _ hfv hfg
      rw [hval, if_neg hfv, if_neg hfg]
    · intro hall
      rcases hex with ⟨w, hw, hwq⟩
      exact absurd hwq (hall w hw)
  · push_neg at hex
    have hb := computeScore_no_exact_bounds e q hex
    refine ⟨?_, ?_, ?_⟩
    · constructor
      · intro h100; omega
      · rintro ⟨hex', -⟩
        rcases hex' with ⟨w, hw, hwq⟩
        exact absurd hwq (hex w hw)
    · rintro ⟨w, hw, hwq⟩ _ _
      exact absurd hwq (hex w hw)
    · intro _; omega

/-- Witness for score100_iff_exact_and_folded at concrete inputs. -/
theorem score100_iff_exact_and_folded_witness :
    computeScore aragornEntry "aragorn" = 100 ∧
    computeScore helloEntry "hello" = 99 ∧
    computeScore aragornEntry "xyz" < 100 :=
  ⟨(score100_iff_exact_and_folded aragornEntry "aragorn").1.mpr
      ⟨by decide, Or.inl (by decide)⟩,
   (score100_iff_exact_and_folded helloEntry "hello").2.1
      (by decide) (by decide) (by decide),
   (score100_iff_exact_and_folded aragornEntry "xyz").2.2 (by decide)⟩

theorem computeWordScore_aragorn_ara : computeWordScore "aragorn" "ara" = 42 := by
  unfold computeWordScore
  rw [if_neg (by decide), if_pos (by decide)]
  rw [show ("ara".length : ℚ) = 3 from by norm_num [String.length],
    show ("aragorn".length : ℚ) = 7 from by norm_num [String.length]]
  norm_num

theorem computeScore_aragorn_ara : computeScore aragornEntry "ara" = 42 := by
  have h1 := computeWordScore_aragorn_ara
  simp only [computeScore, aragornEntry, Option.getD_some, computeScoreGo, h1]
  rw [show max (0 : ℚ) 42 = 42 from max_eq_right (by norm_num), if_neg (by norm_num)]
  exact_mod_cast jsRound_intCast 42

/-- Claim C4, counterexample: the per-token prefix score of "ara" against
"aragorn" is 98 * 3 / 7 = 42, not 100 * 3 / 7, and the entry whose only
token is "aragorn" scores 42, not the 43 the claim computes. -/
theorem prefix_factor_counterexample :
    computeWordScore "aragorn" "ara" = 42 ∧
    computeWordScore "aragorn" "ara" ≠ 100 * 3 / 7 ∧
    computeScore aragornEntry "ara" = 42 ∧
    computeScore aragornEntry "ara" ≠ 43 := by
  refine ⟨computeWordScore_aragorn_ara, ?_, computeScore_aragorn_ara, ?_⟩
  · rw [computeWordScore_aragorn_ara]; norm_num
  · rw [computeScore_aragorn_ara]; norm_num

/-- Claim C4 (amended): for a token t and query q with t not equal to q, if
t starts with q the per-token score is 98 * len(q) / len(t) (factor 98, not
100); in particular the query "ara" against the entry whose only token is
"aragorn" scores round(98 * 3 / 7) = 42. -/
theorem prefix_score_formula :
    (∀ t q : String, t ≠ q → jsStartsWith t q = true →
      computeWordScore t q = (98 * q.length) / t.length) ∧
    computeScore aragornEntry "ara" = 42 := by
  constructor
  · intro t q h h1
    unfold computeWordScore
    rw [if_neg h, if_pos h1]
  · exact computeScore_aragorn_ara

/-- Witness for prefix_score_formula at concrete inputs. -/
theorem prefix_score_formula_witness :
    computeWordScore "aragorn" "ara" = (98 * ("ara".length : ℚ)) / ("aragorn".length : ℚ) :=
  prefix_score_formula.1 "aragorn" "ara" (by decide) (by decide)

/-- Claim C5: in computeIndex, a gloss word ending in a closing bracket is
not shortened by one character but emptied outright, because
word.substring(0, -1) evaluates to the empty string in JavaScript; the word
"word)" is dropped entirely instead of contributing "word".  The stop-word
entries "(lit." and "lit." of the source (annotated "For the (lit.) case")
show the intended behavior was to strip a single character. -/
theorem trailing_bracket_empties_word :
    computeIndex parenNode = ["x"] ∧
    jsSubstring "word)" 0 (-1) = "" ∧
    glossWordToken "word)" = none := by
  refine ⟨by decide, by decide, by decide⟩

/-- Claim C2: matchQuery resolves the short gloss of every element with
gShortDefinitions.get(q) - the query string - instead of the element's own
headword.  With the table mapping "el" to "star", the element "el" of the
matching entry resolves to the empty string rather than to "star". -/
theorem element_gloss_looked_up_by_query :
    matchQuery [eldaEntry] [(some "el", "star")] "elda" =
      [{ v := some "elda", index := ["elda"], language := none, pos := "",
         gloss := some "star-person", stem := none, notes := none,
         tengwar := none, score := 100,
         elements := [{ v := "el", gloss := "" }] }] ∧
    mapGet [(some "el", "star")] (some "el") = some "star" := by
  have h100 : computeScore eldaEntry "elda" = 100 := by
    rw [computeScore_exact eldaEntry "elda" (by decide), if_pos (by decide)]
  constructor
  · simp only [matchQuery, List.filterMap_cons, List.filterMap_nil, h100]
    norm_num
    decide
  · decide

/-- Claim C7, counterexample: querying when no dictionary is available is a
TypeError fault (for..of over undefined), not an empty result list. -/
theorem query_without_dictionary_faults :
    matchQueryOpt none [] "gandalf" =
      .error "TypeError: gEldamoDictionary is not iterable" ∧
    matchQueryOpt none [] "gandalf" ≠ .ok [] := by
  refine ⟨rfl, ?_⟩
  intro h
  simp [matchQueryOpt] at h

/-- Claim C7 (amended): querying with no dictionary loaded (after a failed
load leaves it undefined) throws a TypeError instead of returning an empty
sequence; only a present but empty dictionary yields the empty result
list for every query. -/
theorem matchQuery_absent_vs_empty :
    (∀ (table : GlossTable) (q : String),
      matchQueryOpt none table q =
        .error "TypeError: gEldamoDictionary is not iterable") ∧
    (∀ (table : GlossTable) (q : String),
      matchQueryOpt (some []) table q = .ok []) := by
  exact ⟨fun _ _ => rfl, fun _ _ => rfl⟩

/-! Claim C10: the empty query. -/

theorem glossWordToken_ne_empty {w x : String} (h : glossWordToken w = some x) :
    x ≠ "" := by
  simp only [glossWordToken] at h
  by_cases h1 : w = ""
  · simp [h1] at h
  · rw [if_neg h1] at h
    split_ifs at h with h2
    exact (Option.some_inj.mp h) ▸ h2.1

theorem computeIndex_no_empty_token (n : XNode) : "" ∉ computeIndex n := by
  intro hmem
  simp only [computeIndex, List.mem_append, List.mem_filter, List.mem_flatMap,
    List.mem_filterMap] at hmem
  rcases hmem with ⟨-, hne⟩ | ⟨ph, -, w, -, hw⟩
  · simp at hne
  · exact glossWordToken_ne_empty hw rfl

theorem jsStartsWith_empty (w : String) : jsStartsWith w "" = true := by
  unfold jsStartsWith
  rw [show "".toList = ([] : List Char) from by decide]
  cases w.toList <;> rfl

theorem computeWordScore_empty_query {w : String} (h : w ≠ "") :
    computeWordScore w "" = 0 := by
  unfold computeWordScore
  rw [if_neg h, if_pos (jsStartsWith_empty w)]
  rw [show (("".length : ℕ) : ℚ) = 0 from by norm_num [String.length]]
  rw [mul_zero, zero_div]

theorem computeScoreGo_all_zero {fv fg q : String} :
    ∀ ws : List String, (∀ w ∈ ws, computeWordScore w q = 0) →
      computeScoreGo fv fg q ws 0 = 0 := by
  intro ws
  induction ws with
  | nil =>
    intro _
    show jsRound 0 = 0
    exact_mod_cast jsRound_intCast 0
  | cons w ws ih =>
    intro h
    have hw : computeWordScore w q = 0 := h w (by simp)
    unfold computeScoreGo
    rw [hw, max_self, if_neg (by norm_num)]
    exact ih (fun x hx => h x (by simp [hx]))

theorem computeScore_empty_query (e : Entry) (he : "" ∉ e.index) :
    computeScore e "" = 0 := by
  unfold computeScore
  apply computeScoreGo_all_zero
  intro w hw
  have : w ≠ "" := fun hcon => he (hcon ▸ hw)
  exact computeWordScore_empty_query this

/-- Claim C10: no token produced by computeIndex is empty; the per-token
score of the empty query against any non-empty token is 0 (the empty string
is a prefix of every token and the prefix formula multiplies by the query
length 0); consequently matchQuery with the empty query returns the empty
result list for every dictionary whose entries carry computeIndex-produced
(hence non-empty) tokens. -/
theorem empty_query_returns_nothing :
    (∀ n : XNode, "" ∉ computeIndex n) ∧
    (∀ w : String, w ≠ "" → computeWordScore w "" = 0) ∧
    (∀ (dict : List Entry) (table : GlossTable),
      (∀ e ∈ dict, "" ∉ e.index) → matchQuery dict table "" = []) := by
  refine ⟨computeIndex_no_empty_token, fun w h => computeWordScore_empty_query h, ?_⟩
  intro dict table h
  unfold matchQuery
  rw [List.filterMap_eq_nil_iff]
  intro e he
  rw [computeScore_empty_query e (h e he)]
  norm_num

/-- Witness for empty_query_returns_nothing on a concrete dictionary. -/
theorem empty_query_returns_nothing_witness :
    matchQuery [aragornEntry, helloEntry] [] "" = [] :=
  empty_query_returns_nothing.2.2 [aragornEntry, helloEntry] [] (by decide)

/-! Claim C6: compiling twice.  Helper lemmas about the gloss table. -/

theorem mapGet_nil (k : Option String) : mapGet [] k = none := rfl

theorem mapGet_cons (p : Option String × String) (t : GlossTable) (k : Option String) :
    mapGet (p :: t) k = if p.1 = k then some p.2 else mapGet t k := by
  unfold mapGet
  by_cases h : p.1 = k
  · rw [List.find?_cons_of_pos _ (by simpa using h), if_pos h]
    rfl
  · rw [List.find?_cons_of_neg _ (by simpa using h), if_neg h]

theorem mapGet_mapSet_self :
    ∀ (t : GlossTable) (k : Option String) (v : String),
      mapGet (mapSet t k v) k = some v := by
  intro t
  induction t with
  | nil => intro k v; simp [mapSet, mapGet_cons]
  | cons p t ih =>
    intro k v
    unfold mapSet
    by_cases h : p.1 = k
    · rw [if_pos h, mapGet_cons, if_pos rfl]
    · rw [if_neg h, mapGet_cons, if_neg h]
      exact ih k v

theorem mapGet_mapSet_ne :
    ∀ (t : GlossTable) (k k' : Option String) (v : String), k' ≠ k →
      mapGet (mapSet t k v) k' = mapGet t k' := by
  intro t
  induction t with
  | nil =>
    intro k k' v h
    show mapGet [(k, v)] k' = mapGet [] k'
    rw [mapGet_cons, if_neg (fun hc => h hc.symm), mapGet_nil]
  | cons p t ih =>
    intro k k' v h
    unfold mapSet
    by_cases hp : p.1 = k
    · rw [if_pos hp, mapGet_cons, mapGet_cons]
      rw [if_neg (show ¬ (k, v).1 = k' from fun hc => h hc.symm)]
      rw [if_neg (show ¬ p.1 = k' from by rw [hp]; exact fun hc => h hc.symm)]
    · rw [if_neg hp, mapGet_cons, mapGet_cons]
      by_cases hpk : p.1 = k'
      · rw [if_pos hpk, if_pos hpk]
      · rw [if_neg hpk, if_neg hpk]
        exact ih k k' v h

theorem validGloss_some {e : Entry} (h : validGloss e = true) :
    ∃ g, e.gloss = some g ∧ g ≠ "" ∧ g ≠ "[unglossed]" := by
  unfold validGloss at h
  cases hg : e.gloss with
  | none => rw [hg] at h; cases h
  | some g =>
    rw [hg] at h
    simp only [Bool.and_eq_true, decide_eq_true_eq] at h
    exact ⟨g, rfl, h.1, h.2⟩

theorem shortDefStep_invalid (t : GlossTable) (e : Entry) (h : validGloss e = false) :
    shortDefStep t e = t := by
  cases hg : e.gloss with
  | none => simp only [shortDefStep, hg]
  | some g =>
    have hcon : ¬ (g ≠ "" ∧ g ≠ "[unglossed]") := by
      intro hc
      have : validGloss e = true := by simp [validGloss, hg, hc.1, hc.2]
      rw [this] at h
      cases h
    simp only [shortDefStep, hg, if_neg hcon]

theorem shortDefStep_valid_none (t : GlossTable) (e : Entry) (g : String)
    (hg : e.gloss = some g) (hv : validGloss e = true) (hget : mapGet t e.v = none) :
    shortDefStep t e = mapSet t e.v g := by
  obtain ⟨g', hg', h1, h2⟩ := validGloss_some hv
  rw [hg] at hg'
  injection hg' with hgg
  subst hgg
  simp only [shortDefStep, hg, if_pos (show g ≠ "" ∧ g ≠ "[unglossed]" from ⟨h1, h2⟩), hget]

theorem shortDefStep_valid_diff (t : GlossTable) (e : Entry) (g def0 : String)
    (hg : e.gloss = some g) (hv : validGloss e = true) (hget : mapGet t e.v = some def0)
    (hne : def0 ≠ g) :
    shortDefStep t e = mapSet t e.v (def0 ++ " / " ++ g) := by
  obtain ⟨g', hg', h1, h2⟩ := validGloss_some hv
  rw [hg] at hg'
  injection hg' with hgg
  subst hgg
  simp only [shortDefStep, hg, if_pos (show g ≠ "" ∧ g ≠ "[unglossed]" from ⟨h1, h2⟩),
    hget, if_pos hne]

theorem shortDefStep_valid_same (t : GlossTable) (e : Entry) (g : String)
    (hg : e.gloss = some g) (hv : validGloss e = true) (hget : mapGet t e.v = some g) :
    shortDefStep t e = t := by
  obtain ⟨g', hg', h1, h2⟩ := validGloss_some hv
  rw [hg] at hg'
  injection hg' with hgg
  subst hgg
  simp only [shortDefStep, hg, if_pos (show g ≠ "" ∧ g ≠ "[unglossed]" from ⟨h1, h2⟩),
    hget, if_neg (show ¬ g ≠ g from by simp)]

theorem shortDefStep_isSome (t : GlossTable) (e : Entry) (v' : Option String)
    (h : (mapGet t v').isSome) : (mapGet (shortDefStep t e) v').isSome := by
  by_cases hval : validGloss e = true
  · obtain ⟨g, hg, -, -⟩ := validGloss_some hval
    cases hget : mapGet t e.v with
    | none =>
      rw [shortDefStep_valid_none t e g hg hval hget]
      by_cases hv : v' = e.v
      · subst hv; rw [mapGet_mapSet_self]; simp
      · rw [mapGet_mapSet_ne t e.v v' g hv]; exact h
    | some def0 =>
      by_cases hne : def0 = g
      · rw [shortDefStep_valid_same t e g hg hval (hne ▸ hget)]
        exact h
      · rw [shortDefStep_valid_diff t e g def0 hg hval hget hne]
        by_cases hv : v' = e.v
        · subst hv; rw [mapGet_mapSet_self]; simp
        · rw [mapGet_mapSet_ne t e.v v' _ hv]; exact h
  · rw [shortDefStep_invalid t e (by simpa using hval)]
    exact h

theorem foldl_shortDefStep_isSome (es : List Entry) :
    ∀ (t : GlossTable) (v' : Option String), (mapGet t v').isSome →
      (mapGet (es.foldl shortDefStep t) v').isSome := by
  induction es with
  | nil => intro t v' h; exact h
  | cons e es ih =>
    intro t v' h
    rw [List.foldl_cons]
    exact ih _ _ (shortDefStep_isSome t e v' h)

theorem foldl_shortDefStep_fix (es : List Entry) :
    ∀ t : GlossTable,
      (∀ e ∈ es, validGloss e = true → ∀ g, e.gloss = some g → mapGet t e.v = some g) →
      es.foldl shortDefStep t = t := by
  induction es with
  | nil => intro t _; rfl
  | cons e es ih =>
    intro t h
    have hstep : shortDefStep t e = t := by
      by_cases hv : validGloss e = true
      · obtain ⟨g, hg, -, -⟩ := validGloss_some hv
        exact shortDefStep_valid_same t e g hg hv (h e (by simp) hv g hg)
      · exact shortDefStep_invalid t e (by simpa using hv)
    rw [List.foldl_cons, hstep]
    exact ih t (fun e' he' => h e' (by simp [he']))

theorem foldl_shortDefStep_run1 (ES : List Entry)
    (huniq : ∀ e1 ∈ ES, ∀ e2 ∈ ES, validGloss e1 = true → validGloss e2 = true →
      e1.v = e2.v → e1.gloss = e2.gloss) :
    ∀ (es : List Entry) (t : GlossTable),
      (∀ e ∈ es, e ∈ ES) →
      (∀ v g, mapGet t v = some g →
        ∃ e, e ∈ ES ∧ validGloss e = true ∧ e.v = v ∧ e.gloss = some g) →
      (∀ v g, mapGet (es.foldl shortDefStep t) v = some g →
        ∃ e, e ∈ ES ∧ validGloss e = true ∧ e.v = v ∧ e.gloss = some g) ∧
      (∀ e ∈ es, validGloss e = true →
        (mapGet (es.foldl shortDefStep t) e.v).isSome) := by
  intro es
  induction es with
  | nil =>
    intro t _ hinv
    exact ⟨hinv, by simp⟩
  | cons e es ih =>
    intro t hsub hinv
    have he_ES : e ∈ ES := hsub e (by simp)
    have hstep_inv : ∀ v g, mapGet (shortDefStep t e) v = some g →
        ∃ e2, e2 ∈ ES ∧ validGloss e2 = true ∧ e2.v = v ∧ e2.gloss = some g := by
      by_cases hv : validGloss e = true
      · obtain ⟨g0, hg0, -, -⟩ := validGloss_some hv
        cases hget : mapGet t e.v with
        | none =>
          rw [shortDefStep_valid_none t e g0 hg0 hv hget]
          intro v g hvg
          by_cases hveq : v = e.v
          · subst hveq
            rw [mapGet_mapSet_self] at hvg
            exact ⟨e, he_ES, hv, rfl, hvg ▸ hg0⟩
          · rw [mapGet_mapSet_ne t e.v v g0 hveq] at hvg
            exact hinv v g hvg
        | some def0 =>
          obtain ⟨e2, he2, hval2, hv2, hg2⟩ := hinv e.v def0 hget
          have hgl : e.gloss = e2.gloss := huniq e he_ES e2 he2 hv hval2 hv2.symm
          have hdg : g0 = def0 := by
            rw [hg0, hg2] at hgl
            exact Option.some_inj.mp hgl
          rw [shortDefStep_valid_same t e g0 hg0 hv (hdg ▸ hget)]
          exact hinv
      · rw [shortDefStep_invalid t e (by simpa using hv)]
        exact hinv
    have hsome : validGloss e = true → (mapGet (shortDefStep t e) e.v).isSome := by
      intro hv
      obtain ⟨g0, hg0, -, -⟩ := validGloss_some hv
      cases hget : mapGet t e.v with
      | none =>
        rw [shortDefStep_valid_none t e g0 hg0 hv hget, mapGet_mapSet_self]
        simp
      | some def0 =>
        by_cases hdg : def0 = g0
        · rw [shortDefStep_valid_same t e g0 hg0 hv (hdg ▸ hget), hget]
          simp
        · rw [shortDefStep_valid_diff t e g0 def0 hg0 hv hget hdg, mapGet_mapSet_self]
          simp
    rw [List.foldl_cons]
    have hmain := ih (shortDefStep t e)
      (fun e' he' => hsub e' (by simp [he'])) hstep_inv
    refine ⟨hmain.1, ?_⟩
    intro e' he' hv'
    rcases List.mem_cons.mp he' with heq | hmem
    · rw [heq] at hv' ⊢
      exact foldl_shortDefStep_isSome es (shortDefStep t e) e.v (hsome hv')
    · exact hmain.2 e' hmem hv'

/-- Claim C6, counterexample: a tree with two word entries sharing headword
"a" but carrying distinct glosses g1 and g2.  The first compilation run
produces the table { a : g1 / g2 }; running compileDictionary a second time
over that table appends both glosses again, giving { a : g1 / g2 / g1 / g2 },
so the second run does not leave the table equal to the first run's. -/
theorem recompile_grows_table :
    (compileDictionary dupGlossRoot []).2 = [(some "a", "g1 / g2")] ∧
    (compileDictionary dupGlossRoot (compileDictionary dupGlossRoot []).2).2 =
      [(some "a", "g1 / g2 / g1 / g2")] ∧
    (compileDictionary dupGlossRoot (compileDictionary dupGlossRoot []).2).2 ≠
      (compileDictionary dupGlossRoot []).2 := by
  refine ⟨by decide, by decide, by decide⟩

/-- Claim C6 (amended): compiling the same tree twice from a fresh empty
table yields identical entry lists and tables (the compiler is a pure
function of the tree and the incoming table); and a second
compileDictionary run over the table produced by the first run leaves the
table unchanged provided no headword carries two distinct valid glosses -
otherwise the merge rule appends the differing glosses again, as the
counterexample shows.  The recompiled entry list always equals the first
run's. -/
theorem recompile_table_fixpoint (root : XNode)
    (huniq : ∀ e1 ∈ compileDictionaryRecursive root,
      ∀ e2 ∈ compileDictionaryRecursive root,
      validGloss e1 = true → validGloss e2 = true → e1.v = e2.v →
        e1.gloss = e2.gloss) :
    (compileDictionary root ((compileDictionary root []).2)).2 =
      (compileDictionary root []).2 ∧
    (compileDictionary root ((compileDictionary root []).2)).1 =
      (compileDictionary root []).1 := by
  refine ⟨?_, rfl⟩
  show (compileDictionaryRecursive root).foldl shortDefStep
      ((compileDictionaryRecursive root).foldl shortDefStep []) =
    (compileDictionaryRecursive root).foldl shortDefStep []
  have hrun1 := foldl_shortDefStep_run1 (compileDictionaryRecursive root) huniq
    (compileDictionaryRecursive root) [] (fun _ h => h)
    (by intro v g h; rw [mapGet_nil] at h; cases h)
  apply foldl_shortDefStep_fix
  intro e he hv g hg
  have hs := hrun1.2 e he hv
  obtain ⟨g', hg'⟩ := Option.isSome_iff_exists.mp hs
  obtain ⟨e2, he2, hval2, hv2, hg2⟩ := hrun1.1 e.v g' hg'
  have hgl : e.gloss = e2.gloss := huniq e he e2 he2 hv hval2 hv2.symm
  rw [hg2] at hgl
  rw [hg] at hgl
  rw [hg', Option.some_inj.mp hgl]

/-- Witness for recompile_table_fixpoint on a tree with unique glosses. -/
theorem recompile_table_fixpoint_witness :
    (compileDictionary uniqGlossRoot ((compileDictionary uniqGlossRoot []).2)).2 =
      (compileDictionary uniqGlossRoot []).2 :=
  (recompile_table_fixpoint uniqGlossRoot (by decide)).1

/-! Claim C8: the tengwar spelling correction. -/

theorem toLowerChar_eq_s_iff (c : Char) : toLowerChar c = 's' ↔ (c = 's' ∨ c = 'S') := by
  constructor
  · intro h
    by_cases hs : c = 's'
    · exact Or.inl hs
    by_cases hS : c = 'S'
    · exact Or.inr hS
    exfalso
    revert h
    show ¬ toLowerChar c = 's'
    unfold toLowerChar
    split
    all_goals first | decide | (exact fun _ => hS rfl) | exact hs
  · intro h
    rcases h with h | h <;> subst h <;> decide

theorem jsToLower_toList (v : String) :
    (jsToLower v).toList = v.toList.map toLowerChar := rfl

theorem correctTengwar_no_hint (n : XNode) (h : n.attr.tengwar = none) :
    correctTengwar n = n.attr.v := by
  cases hv : n.attr.v with
  | none => simp only [correctTengwar, hv, h]
  | some v => simp only [correctTengwar, hv, h]

theorem correctTengwar_no_headword (n : XNode) (h : n.attr.v = none) :
    correctTengwar n = none := by
  simp only [correctTengwar, h]

theorem correctTengwar_nasal_cases (n : XNode) (v : String)
    (hv : n.attr.v = some v) (hne : v ≠ "")
    (ht : n.attr.tengwar = some "ñ" ∨ n.attr.tengwar = some "ñ-") :
    (v.toList.head? = some 'n' →
      correctTengwar n = some (String.mk ('ñ' :: v.toList.tail))) ∧
    (v.toList.head? = some 'N' →
      correctTengwar n = some (String.mk ('Ñ' :: v.toList.tail))) ∧
    (v.toList.head? ≠ some 'n' → v.toList.head? ≠ some 'N' →
      correctTengwar n = some v) := by
  refine ⟨?_, ?_, ?_⟩
  · intro hh
    cases hl : v.toList with
    | nil => rw [hl] at hh; cases hh
    | cons c rest =>
      rw [hl] at hh
      have hc : c = 'n' := by simpa using hh
      subst hc
      have hl' : v.data = 'n' :: rest := hl
      rcases ht with htg | htg <;>
        simp [correctTengwar, hv, htg, hne, hl, hl']
  · intro hh
    cases hl : v.toList with
    | nil => rw [hl] at hh; cases hh
    | cons c rest =>
      rw [hl] at hh
      have hc : c = 'N' := by simpa using hh
      subst hc
      have hl' : v.data = 'N' :: rest := hl
      rcases ht with htg | htg <;>
        simp [correctTengwar, hv, htg, hne, hl, hl']
  · intro h1 h2
    cases hl : v.toList with
    | nil =>
      have hl' : v.data = [] := hl
      rcases ht with htg | htg <;>
        simp [correctTengwar, hv, htg, hne, hl, hl']
    | cons c rest =>
      rw [hl] at h1 h2
      have hc1 : c ≠ 'n' := fun hcc => h1 (by simp [hcc])
      have hc2 : c ≠ 'N' := fun hcc => h2 (by simp [hcc])
      have hl' : v.data = c :: rest := hl
      rcases ht with htg | htg <;>
      · simp only [correctTengwar, hv, htg, hl']
        rw [if_neg (by simp [hne]), if_pos (by simp)]
        split <;> simp_all

theorem correctTengwar_thorn_found (n : XNode) (v : String) (i : Nat)
    (hv : n.attr.v = some v) (hne : v ≠ "")
    (ht : n.attr.tengwar = some "þ" ∨ n.attr.tengwar = some "þ-")
    (hi : (jsToLower v).toList.findIdx? (fun c => c = 's') = some i) :
    correctTengwar n = some (String.mk (v.toList.take i ++
      (if v.toList[i]? = some 'S' then 'Þ' else 'þ') :: v.toList.drop (i + 1))) := by
  rcases ht with htg | htg <;>
  · simp only [correctTengwar, hv, htg]
    rw [if_neg (by simp [hne]), if_neg (by simp), if_pos (by simp), hi]

theorem correctTengwar_thorn_none (n : XNode) (v : String)
    (hv : n.attr.v = some v) (hne : v ≠ "")
    (ht : n.attr.tengwar = some "þ" ∨ n.attr.tengwar = some "þ-")
    (hi : (jsToLower v).toList.findIdx? (fun c => c = 's') = none) :
    correctTengwar n = some v := by
  rcases ht with htg | htg <;>
  · simp only [correctTengwar, hv, htg]
    rw [if_neg (by simp [hne]), if_neg (by simp), if_pos (by simp), hi]

theorem findIdx?_some_spec {α : Type} (p : α → Bool) :
    ∀ (l : List α) (i : Nat), l.findIdx? p = some i →
      i < l.length ∧ (∀ j, j < i → ∀ x, l[j]? = some x → p x = false) ∧
      (∀ x, l[i]? = some x → p x = true) := by
  intro l
  induction l with
  | nil => intro i h; cases h
  | cons a l ih =>
    intro i h
    rw [List.findIdx?_cons] at h
    by_cases hpa : p a
    · rw [if_pos hpa] at h
      have hi0 : i = 0 := (Option.some_inj.mp h).symm
      subst hi0
      refine ⟨by simp, by omega, ?_⟩
      intro x hx
      rw [List.getElem?_cons_zero] at hx
      rw [← Option.some_inj.mp hx]
      exact hpa
    · rw [if_neg hpa, List.findIdx?_start_succ] at h
      cases hfi : l.findIdx? p with
      | none => rw [hfi] at h; cases h
      | some i0 =>
        rw [hfi] at h
        simp only [Option.map_some', Option.some_inj] at h
        obtain ⟨hlen0, hbef0, hat0⟩ := ih i0 hfi
        have hi : i = i0 + 1 := by omega
        subst hi
        refine ⟨by simp; omega, ?_, ?_⟩
        · intro j hj x hx
          cases j with
          | zero =>
            rw [List.getElem?_cons_zero] at hx
            rw [← Option.some_inj.mp hx]
            simpa using hpa
          | succ j0 =>
            rw [List.getElem?_cons_succ] at hx
            exact hbef0 j0 (by omega) x hx
        · intro x hx
          rw [List.getElem?_cons_succ] at hx
          exact hat0 x hx

theorem sIndex_is_first_s (v : String) (i : Nat)
    (hi : (jsToLower v).toList.findIdx? (fun c => c = 's') = some i) :
    i < v.toList.length ∧
    (∀ j, j < i → v.toList[j]? ≠ some 's' ∧ v.toList[j]? ≠ some 'S') ∧
    (v.toList[i]? = some 's' ∨ v.toList[i]? = some 'S') := by
  rw [jsToLower_toList] at hi
  obtain ⟨hlen0, hbef, hat⟩ := findIdx?_some_spec _ _ _ hi
  have hlen : i < v.toList.length := by rwa [List.length_map] at hlen0
  refine ⟨hlen, ?_, ?_⟩
  · intro j hj
    cases hx : v.toList[j]? with
    | none => simp
    | some x =>
      have hmx : (v.toList.map toLowerChar)[j]? = some (toLowerChar x) := by
        rw [List.getElem?_map, hx]
        rfl
      have hfalse := hbef j hj (toLowerChar x) hmx
      have hns : ¬ (x = 's' ∨ x = 'S') := by
        intro hor
        have := (toLowerChar_eq_s_iff x).mpr hor
        simp [this] at hfalse
      push_neg at hns
      constructor
      · intro hcon
        exact hns.1 (Option.some_inj.mp hcon)
      · intro hcon
        exact hns.2 (Option.some_inj.mp hcon)
  · have hx : v.toList[i]? = some (v.toList.get ⟨i, hlen⟩) := List.getElem?_eq_getElem hlen
    have hmx : (v.toList.map toLowerChar)[i]? = some (toLowerChar (v.toList.get ⟨i, hlen⟩)) := by
      rw [List.getElem?_map, hx]
      rfl
    have htrue := hat (toLowerChar (v.toList.get ⟨i, hlen⟩)) hmx
    have hor : v.toList.get ⟨i, hlen⟩ = 's' ∨ v.toList.get ⟨i, hlen⟩ = 'S' := by
      apply (toLowerChar_eq_s_iff _).mp
      simpa using htrue
    rw [hx]
    rcases hor with h | h
    · exact Or.inl (by rw [h])
    · exact Or.inr (by rw [h])

theorem correctTengwar_norpus (n : XNode) (v : String)
    (hv : n.attr.v = some v) (hne : v ≠ "") (ht : n.attr.tengwar = some "ñorþus") :
    correctTengwar n = some "Ñorþus" := by
  simp only [correctTengwar, hv, ht]
  rw [if_neg (by simp [hne]), if_neg (by simp), if_neg (by simp)]
  simp

theorem correctTengwar_other_hint (n : XNode) (v t : String)
    (hv : n.attr.v = some v) (ht : n.attr.tengwar = some t)
    (hnot : t ∉ (["ñ", "ñ-", "þ", "þ-", "ñorþus"] : List String)) :
    correctTengwar n = some v := by
  simp only [List.mem_cons, List.mem_singleton, not_or] at hnot
  obtain ⟨h1, h2, h3, h4, h5⟩ := hnot
  by_cases hg : v = "" ∨ t = ""
  · simp only [correctTengwar, hv, ht, if_pos hg]
  · simp only [correctTengwar, hv, ht]
    rw [if_neg hg, if_neg (by simp [h1, h2]), if_neg (by simp [h3, h4]),
      if_neg (by simp [h5])]

/-- Claim C8: correctTengwar applies at most one substitution.  With hint ñ
or ñ- the first character is replaced only when it is n or N, preserving
case; with hint þ or þ- the first s or S - located case-insensitively on the
lower-cased headword, substituted case-preservingly - is replaced; the
literal hint ñorþus forces the fixed word Ñorþus; any other hint, an absent
hint, or an absent headword leaves the headword unchanged; the function
reads the attributes without mutating them. -/
theorem correctTengwar_spec :
    (∀ n : XNode, n.attr.tengwar = none → correctTengwar n = n.attr.v) ∧
    (∀ n : XNode, n.attr.v = none → correctTengwar n = none) ∧
    (∀ (n : XNode) (v : String), n.attr.v = some v → v ≠ "" →
      n.attr.tengwar = some "ñ" ∨ n.attr.tengwar = some "ñ-" →
      (v.toList.head? = some 'n' →
        correctTengwar n = some (String.mk ('ñ' :: v.toList.tail))) ∧
      (v.toList.head? = some 'N' →
        correctTengwar n = some (String.mk ('Ñ' :: v.toList.tail))) ∧
      (v.toList.head? ≠ some 'n' → v.toList.head? ≠ some 'N' →
        correctTengwar n = some v)) ∧
    (∀ (n : XNode) (v : String) (i : Nat), n.attr.v = some v → v ≠ "" →
      n.attr.tengwar = some "þ" ∨ n.attr.tengwar = some "þ-" →
      ((jsToLower v).toList.findIdx? (fun c => c = 's') = some i →
        correctTengwar n = some (String.mk (v.toList.take i ++
          (if v.toList[i]? = some 'S' then 'Þ' else 'þ') :: v.toList.drop (i + 1))) ∧
        (∀ j, j < i → v.toList[j]? ≠ some 's' ∧ v.toList[j]? ≠ some 'S') ∧
        (v.toList[i]? = some 's' ∨ v.toList[i]? = some 'S')) ∧
      ((jsToLower v).toList.findIdx? (fun c => c = 's') = none →
        correctTengwar n = some v)) ∧
    (∀ (n : XNode) (v : String), n.attr.v = some v → v ≠ "" →
      n.attr.tengwar = some "ñorþus" → correctTengwar n = some "Ñorþus") ∧
    (∀ (n : XNode) (v t : String), n.attr.v = some v → n.attr.tengwar = some t →
      t ∉ (["ñ", "ñ-", "þ", "þ-", "ñorþus"] : List String) →
        correctTengwar n = some v) := by
  refine ⟨correctTengwar_no_hint, correctTengwar_no_headword, ?_, ?_, ?_, ?_⟩
  · intro n v hv hne ht
    exact correctTengwar_nasal_cases n v hv hne ht
  · intro n v i hv hne ht
    constructor
    · intro hi
      obtain ⟨-, hbefore, hat⟩ := sIndex_is_first_s v i hi
      exact ⟨correctTengwar_thorn_found n v i hv hne ht hi, hbefore, hat⟩
    · intro hi
      exact correctTengwar_thorn_none n v hv hne ht hi
  · intro n v hv hne ht
    exact correctTengwar_norpus n v hv hne ht
  · intro n v t hv ht hnot
    exact correctTengwar_other_hint n v t hv ht hnot

/-- Witness for correctTengwar_spec at concrete nodes: a nasal hint on
"noldo", a sibilant hint on "aSta", the literal hint, and an unknown
hint. -/
theorem correctTengwar_spec_witness :
    correctTengwar (.node "word" { v := some "noldo", tengwar := some "ñ" } "" []) =
      some "ñoldo" ∧
    correctTengwar (.node "word" { v := some "aSta", tengwar := some "þ" } "" []) =
      some "aÞta" ∧
    correctTengwar (.node "word" { v := some "northus", tengwar := some "ñorþus" } "" []) =
      some "Ñorþus" ∧
    correctTengwar (.node "word" { v := some "mellon", tengwar := some "w" } "" []) =
      some "mellon" := by
  refine ⟨?_, ?_, ?_, ?_⟩
  · have h := (correctTengwar_spec.2.2.1
      (.node "word" { v := some "noldo", tengwar := some "ñ" } "" [])
      "noldo" rfl (by decide) (Or.inl rfl)).1 (by decide)
    rw [h]
    decide
  · have h := ((correctTengwar_spec.2.2.2.1
      (.node "word" { v := some "aSta", tengwar := some "þ" } "" [])
      "aSta" 1 rfl (by decide) (Or.inl rfl)).1 (by decide)).1
    rw [h]
    decide
  · exact correctTengwar_spec.2.2.2.2.1
      (.node "word" { v := some "northus", tengwar := some "ñorþus" } "" [])
      "northus" rfl (by decide) rfl
  · exact correctTengwar_spec.2.2.2.2.2
      (.node "word" { v := some "mellon", tengwar := some "w" } "" [])
      "mellon" "w" rfl rfl (by decide)

/-! Claim C9: the ring buffer keeps exactly RING_SIZE slots and a cursor
below RING_SIZE through every operation. -/

theorem ringHit_wellSized (s : RingState) (i : Nat) (e : String × String)
    (hs : wellSized s) (hi : i < s.ring.length) : wellSized (ringHit s i e) := by
  obtain ⟨hlen, hidx⟩ := hs
  have hsize : (0 : Nat) < RING_SIZE := by norm_num [RING_SIZE]
  unfold ringHit
  by_cases heq : s.idx ≠ i
  · rw [if_pos heq]
    dsimp only
    have h1 : (s.ring.set s.idx (some e)).length = RING_SIZE := by
      rw [List.length_set]; exact hlen
    have h2 : ((s.ring.set s.idx (some e)).eraseIdx i).length = RING_SIZE - 1 := by
      rw [List.length_eraseIdx_of_lt (by rw [h1, ← hlen]; exact hi), h1]
    by_cases hgt : i > s.idx
    · rw [if_pos hgt]
      have hj : (s.idx + 1) % ((s.ring.set s.idx (some e)).eraseIdx i).length <
          RING_SIZE - 1 := by
        rw [h2]
        exact Nat.mod_lt _ (by omega)
      constructor
      · show (List.insertIdx _ _ _).length = RING_SIZE
        rw [List.length_insertIdx _ _ (by omega), h2]
        omega
      · show _ % _ < RING_SIZE
        omega
    · rw [if_neg hgt]
      constructor
      · show (List.insertIdx _ _ _).length = RING_SIZE
        rw [List.length_insertIdx _ _ (by rw [h2]; omega), h2]
        omega
      · exact hidx
  · rw [if_neg heq]
    refine ⟨hlen, ?_⟩
    show (s.idx + 1) % s.ring.length < RING_SIZE
    rw [hlen]
    exact Nat.mod_lt _ hsize

theorem getGo_wellSized (k : String) :
    ∀ (fuel : Nat) (s : RingState) (r : Option String) (i : Nat),
      wellSized s → wellSized (getGo k fuel s r i).1 := by
  intro fuel
  induction fuel with
  | zero => intro s r i hs; exact hs
  | succ f ih =>
    intro s r i hs
    unfold getGo
    by_cases hc : jsTruthy r = true ∨ s.ring.length ≤ i
    · rw [if_pos hc]
      exact hs
    · rw [if_neg hc]
      push_neg at hc
      have hi : i < s.ring.length := by omega
      cases hslot : s.ring[i]? with
      | none => exact ih s r (i + 1) hs
      | some o =>
        cases o with
        | none => exact ih s r (i + 1) hs
        | some kv =>
          dsimp only
          by_cases hk : kv.1 = k
          · rw [if_pos hk]
            exact ih _ _ _ (ringHit_wellSized s i kv hs hi)
          · rw [if_neg hk]
            exact ih s r (i + 1) hs

/-- Claim C9: every addToRing call and every getFromRing call (hit or miss,
at any cursor position) preserves the invariant that the ring has exactly
RING_SIZE = 40 slots and the cursor stays in [0, RING_SIZE), even though a
hit at a non-cursor slot removes a slot by splice and re-inserts an empty
slot. -/
theorem ring_operations_preserve_shape (s : RingState) (h : wellSized s) :
    (∀ k v : String, wellSized (addToRing k v s)) ∧
    (∀ k : String, wellSized (getFromRing k s).1) := by
  constructor
  · intro k v
    obtain ⟨hlen, -⟩ := h
    constructor
    · show (s.ring.set s.idx _).length = RING_SIZE
      rw [List.length_set]
      exact hlen
    · show (s.idx + 1) % RING_SIZE < RING_SIZE
      exact Nat.mod_lt _ (by norm_num [RING_SIZE])
  · intro k
    exact getGo_wellSized k s.ring.length s none 0 h

/-- Witness for ring_operations_preserve_shape on the initial ring state. -/
theorem ring_operations_preserve_shape_witness :
    wellSized (addToRing "narya" "ring of fire" initialRing) ∧
    wellSized (getFromRing "narya" initialRing).1 :=
  ⟨(ring_operations_preserve_shape initialRing ⟨by decide, by decide⟩).1 "narya" "ring of fire",
   (ring_operations_preserve_shape initialRing ⟨by decide, by decide⟩).2 "narya"⟩

/-! Claim C3: list utilities for the ring abstraction. -/

theorem optmap_congr {L : List (String × String)} {x y : Nat} (h : x = y) :
    (L[x]?).map some = (L[y]?).map some := by rw [h]

theorem optmap_eq_of_eq {L : List (String × String)} {x m : Nat} {kv : String × String}
    (hx : x = m) (hkv : L[m]? = some kv) : (L[x]?).map some = some (some kv) := by
  rw [hx, hkv]
  rfl

theorem insertIdx_eq_take_cons_drop {α : Type} (a : α) :
    ∀ (n : Nat) (l : List α), n ≤ l.length →
      l.insertIdx n a = l.take n ++ a :: l.drop n := by
  intro n
  induction n with
  | zero => intro l _; simp [List.insertIdx_zero]
  | succ n ih =>
    intro l hn
    cases l with
    | nil => simp at hn
    | cons b l =>
      rw [List.insertIdx_succ_cons, ih l (by simpa using hn)]
      simp

theorem insertIdx_getElem? {α : Type} (l : List α) (a : α) (n : Nat) (hn : n ≤ l.length)
    (j : Nat) :
    (l.insertIdx n a)[j]? =
      if j < n then l[j]? else if j = n then some a else l[j - 1]? := by
  rw [insertIdx_eq_take_cons_drop a n l hn]
  have hlt : (l.take n).length = n := by
    rw [List.length_take]
    omega
  rcases Nat.lt_trichotomy j n with h | h | h
  · rw [List.getElem?_append_left (by omega), if_pos h]
    exact List.getElem?_take_of_lt h
  · subst h
    rw [List.getElem?_append_right (by omega), if_neg (by omega), if_pos rfl, hlt]
    simp
  · rw [List.getElem?_append_right (by omega), if_neg (by omega), if_neg (by omega), hlt]
    have hj : j - n = (j - n - 1) + 1 := by omega
    rw [hj, List.getElem?_cons_succ, List.getElem?_drop]
    apply congrArg
    omega

theorem append_single_getElem? {α : Type} (A : List α) (p : α) (x : Nat) :
    (A ++ [p])[x]? =
      if x < A.length then A[x]? else if x = A.length then some p else none := by
  rcases Nat.lt_trichotomy x A.length with h | h | h
  · rw [List.getElem?_append_left h, if_pos h]
  · subst h
    rw [List.getElem?_append_right le_rfl, if_neg (by omega), if_pos rfl]
    simp
  · rw [if_neg (by omega), if_neg (by omega)]
    apply List.getElem?_eq_none
    simp
    omega

theorem tail_getElem? {α : Type} (l : List α) (x : Nat) : l.tail[x]? = l[x + 1]? := by
  cases l with
  | nil => simp
  | cons a l => simp

theorem ringOf_length (L : List (String × String)) (idx : Nat)
    (hL : L.length ≤ RING_SIZE) (hidx : idx < RING_SIZE) :
    (ringOf L idx).length = RING_SIZE := by
  unfold ringOf
  split_ifs with hc
  · simp only [List.length_append, List.length_replicate, List.length_map]
    omega
  · simp only [List.length_append, List.length_replicate, List.length_map,
      List.length_take, List.length_drop]
    omega

theorem ringOf_getElem? (L : List (String × String)) (idx j : Nat)
    (hL : L.length ≤ RING_SIZE) (hidx : idx < RING_SIZE) (hj : j < RING_SIZE) :
    (ringOf L idx)[j]? =
      if L.length ≤ idx then
        (if idx - L.length ≤ j ∧ j < idx then (L[j - (idx - L.length)]?).map some
         else some none)
      else
        (if j < idx then (L[(L.length - idx) + j]?).map some
         else if j < idx + (RING_SIZE - L.length) then some none
         else (L[j - idx - (RING_SIZE - L.length)]?).map some) := by
  unfold ringOf
  by_cases hc : L.length ≤ idx
  · rw [if_pos hc, if_pos hc]
    have hA : (List.replicate (idx - L.length) (none : Option (String × String))).length
        = idx - L.length := List.length_replicate _ _
    have hAB : (List.replicate (idx - L.length) (none : Option (String × String))
        ++ L.map some).length = idx := by
      simp only [List.length_append, List.length_replicate, List.length_map]
      omega
    by_cases h1 : j < idx
    · rw [List.getElem?_append_left (by omega)]
      by_cases h2 : j < idx - L.length
      · rw [List.getElem?_append_left (by omega), if_neg (by omega),
          List.getElem?_replicate, if_pos (by omega)]
      · rw [List.getElem?_append_right (by omega), if_pos (by omega), hA,
          List.getElem?_map]
    · rw [List.getElem?_append_right (by omega), if_neg (by omega), hAB,
        List.getElem?_replicate, if_pos (by omega)]
  · rw [if_neg hc, if_neg hc]
    have hD : ((L.map some).drop (L.length - idx)).length = idx := by
      simp only [List.length_drop, List.length_map]
      omega
    have hDN : ((L.map some).drop (L.length - idx)
        ++ List.replicate (RING_SIZE - L.length) (none : Option (String × String))).length
        = idx + (RING_SIZE - L.length) := by
      simp only [List.length_append, List.length_drop, List.length_map,
        List.length_replicate]
      omega
    by_cases h1 : j < idx
    · rw [List.getElem?_append_left (by omega), List.getElem?_append_left (by omega),
        List.getElem?_drop, List.getElem?_map, if_pos h1]
    · by_cases h2 : j < idx + (RING_SIZE - L.length)
      · rw [List.getElem?_append_left (by omega), List.getElem?_append_right (by omega),
          hD, List.getElem?_replicate, if_pos (by omega), if_neg h1, if_pos h2]
      · rw [List.getElem?_append_right (by omega), hDN, if_neg h1, if_neg h2]
        rw [List.getElem?_take_of_lt (by omega), List.getElem?_map]
        apply optmap_congr
        omega

theorem hitPos_lt (e idx m : Nat) (he : e ≤ RING_SIZE) (hidx : idx < RING_SIZE)
    (hm : m < e) : hitPos e idx m < RING_SIZE := by
  unfold hitPos
  split_ifs <;> omega

theorem ringOf_getElem?_hitPos (L : List (String × String)) (idx m : Nat)
    (hL : L.length ≤ RING_SIZE) (hidx : idx < RING_SIZE) (hm : m < L.length) :
    (ringOf L idx)[hitPos L.length idx m]? = (L[m]?).map some := by
  rw [ringOf_getElem? L idx _ hL hidx (hitPos_lt _ _ _ hL hidx hm)]
  unfold hitPos
  split_ifs <;> first | (apply optmap_congr; omega) | (exfalso; omega)

theorem ringOf_slot_cases (L : List (String × String)) (idx j : Nat)
    (hL : L.length ≤ RING_SIZE) (hidx : idx < RING_SIZE) (hj : j < RING_SIZE) :
    (ringOf L idx)[j]? = some none ∨
    ∃ m, ∃ hm : m < L.length, hitPos L.length idx m = j ∧
      (ringOf L idx)[j]? = some (some (L[m])) := by
  rw [ringOf_getElem? L idx j hL hidx hj]
  by_cases hc : L.length ≤ idx
  · rw [if_pos hc]
    by_cases h1 : idx - L.length ≤ j ∧ j < idx
    · rw [if_pos h1]
      right
      refine ⟨j - (idx - L.length), by omega, by unfold hitPos; split_ifs <;> omega, ?_⟩
      rw [List.getElem?_eq_getElem (by omega)]
      rfl
    · rw [if_neg h1]
      left
      rfl
  · rw [if_neg hc]
    by_cases h1 : j < idx
    · rw [if_pos h1]
      right
      refine ⟨(L.length - idx) + j, by omega, by unfold hitPos; split_ifs <;> omega, ?_⟩
      rw [List.getElem?_eq_getElem (by omega)]
      rfl
    · by_cases h2 : j < idx + (RING_SIZE - L.length)
      · rw [if_neg h1, if_pos h2]
        left
        rfl
      · rw [if_neg h1, if_neg h2]
        right
        refine ⟨j - idx - (RING_SIZE - L.length), by omega,
          by unfold hitPos; split_ifs <;> omega, ?_⟩
        rw [List.getElem?_eq_getElem (by omega)]
        rfl

theorem nodup_keys_getElem_ne (L : List (String × String))
    (hnd : (L.map Prod.fst).Nodup) (m m' : Nat) (hm : m < L.length)
    (hm' : m' < L.length) (hne : m ≠ m') : (L[m]).1 ≠ (L[m']).1 := by
  intro hcon
  apply hne
  have hml : m < (L.map Prod.fst).length := by simpa using hm
  have hml' : m' < (L.map Prod.fst).length := by simpa using hm'
  have h1 : (L.map Prod.fst)[m] = (L.map Prod.fst)[m'] := by
    rw [List.getElem_map, List.getElem_map]
    exact hcon
  exact (hnd.getElem_inj_iff).mp h1

/-! Claim C3: behavior of the getFromRing scan loop. -/

theorem getGo_truthy (k : String) (fuel : Nat) (s : RingState) (v : String) (i : Nat)
    (hv : v ≠ "") : getGo k fuel s (some v) i = (s, some v) := by
  cases fuel with
  | zero => rw [getGo]
  | succ f =>
    rw [getGo, if_pos]
    left
    simpa [jsTruthy] using hv

theorem getGo_step_skip (k : String) (fuel : Nat) (s : RingState) (r : Option String)
    (i : Nat) (hr : jsTruthy r = false) (hi : i < s.ring.length)
    (hslot : ∀ kv : String × String, s.ring[i]? = some (some kv) → kv.1 ≠ k) :
    getGo k (fuel + 1) s r i = getGo k fuel s r (i + 1) := by
  rw [getGo, if_neg (by rw [hr]; simp; omega)]
  cases hs : s.ring[i]? with
  | none => rfl
  | some o =>
    cases o with
    | none => rfl
    | some kv =>
      dsimp only
      rw [if_neg (hslot kv hs)]

theorem getGo_step_hit (k : String) (fuel : Nat) (s : RingState) (i : Nat)
    (kv : String × String) (hi : i < s.ring.length)
    (hslot : s.ring[i]? = some (some kv)) (hk : kv.1 = k) :
    getGo k (fuel + 1) s none i =
      getGo k fuel (ringHit s i kv) (some kv.2) (i + 1) := by
  rw [getGo, if_neg (by simp [jsTruthy]; omega), hslot]
  dsimp only
  rw [if_pos hk]

theorem getGo_scan (k : String) (s : RingState) (p : Nat) (kv : String × String)
    (hp : p < s.ring.length) (hslot : s.ring[p]? = some (some kv)) (hk : kv.1 = k)
    (hv : kv.2 ≠ "")
    (hnm : ∀ j, j < p → ∀ kv' : String × String,
      s.ring[j]? = some (some kv') → kv'.1 ≠ k) :
    ∀ (fuel i : Nat), i ≤ p → p < i + fuel →
      getGo k fuel s none i = (ringHit s p kv, some kv.2) := by
  intro fuel
  induction fuel with
  | zero => intro i hip hpf; omega
  | succ f ih =>
    intro i hip hpf
    by_cases hip' : i = p
    · subst hip'
      rw [getGo_step_hit k f s i kv hp hslot hk]
      exact getGo_truthy k f (ringHit s i kv) kv.2 (i + 1) hv
    · rw [getGo_step_skip k f s none i rfl (by omega) (hnm i (by omega))]
      exact ih (i + 1) (by omega) (by omega)

theorem getGo_no_match (k : String) (s : RingState)
    (hnm : ∀ j : Nat, ∀ kv' : String × String,
      s.ring[j]? = some (some kv') → kv'.1 ≠ k) :
    ∀ (fuel i : Nat), getGo k fuel s none i = (s, none) := by
  intro fuel
  induction fuel with
  | zero => intro i; rw [getGo]
  | succ f ih =>
    intro i
    by_cases hi : i < s.ring.length
    · rw [getGo_step_skip k f s none i rfl hi (hnm i)]
      exact ih (i + 1)
    · rw [getGo, if_pos (by right; omega)]

/-! Claim C3: addToRing writes the new entry at the cursor, which holds the
least recently used entry when the ring is full. -/

set_option maxHeartbeats 2000000 in
theorem addToRing_ring_eq (L : List (String × String)) (idx : Nat) (k v : String)
    (hL : L.length ≤ RING_SIZE) (hidx : idx < RING_SIZE) :
    (ringOf L idx).set idx (some (k, v)) =
      ringOf ((if L.length = RING_SIZE then L.tail else L) ++ [(k, v)])
        ((idx + 1) % RING_SIZE) := by
  have hR : RING_SIZE = 40 := rfl
  have hmod : (idx + 1) % RING_SIZE < RING_SIZE := Nat.mod_lt _ (by omega)
  have hlen1 : (ringOf L idx).length = RING_SIZE := ringOf_length L idx hL hidx
  by_cases hfull : L.length = RING_SIZE
  · rw [if_pos hfull]
    have hlen2 : (L.tail ++ [(k, v)]).length = L.length := by
      simp [List.length_tail]
      omega
    apply List.ext_getElem?
    intro j
    by_cases hj : j < RING_SIZE
    · rw [List.getElem?_set, hlen1,
        ringOf_getElem? L idx j hL hidx hj,
        ringOf_getElem? _ _ j (by omega) hmod hj, hlen2, hfull]
      simp only [append_single_getElem?, tail_getElem?, List.length_tail, hfull]
      simp only [RING_SIZE] at hL hidx hj hmod hfull ⊢
      split_ifs <;>
        first
          | rfl
          | (exfalso; omega)
          | (apply optmap_congr; omega)
    · rw [List.getElem?_eq_none (by rw [List.length_set, hlen1]; omega),
        List.getElem?_eq_none (by rw [ringOf_length _ _ (by omega) hmod]; omega)]
  · rw [if_neg hfull]
    have hlen2 : (L ++ [(k, v)]).length = L.length + 1 := by simp
    apply List.ext_getElem?
    intro j
    by_cases hj : j < RING_SIZE
    · rw [List.getElem?_set, hlen1,
        ringOf_getElem? L idx j hL hidx hj,
        ringOf_getElem? _ _ j (by simp; omega) hmod hj, hlen2]
      simp only [append_single_getElem?]
      simp only [RING_SIZE] at hL hidx hj hmod ⊢
      split_ifs <;>
        first
          | rfl
          | (exfalso; omega)
          | (apply optmap_congr; omega)
    · rw [List.getElem?_eq_none (by rw [List.length_set, hlen1]; omega),
        List.getElem?_eq_none (by rw [ringOf_length _ _ (by simp; omega) hmod]; omega)]

theorem addToRing_WF (s : RingState) (L : List (String × String)) (k v : String)
    (hwf : WFRing s L) (hk : k ∉ L.map Prod.fst) (hv : v ≠ "") :
    WFRing (addToRing k v s)
      ((if L.length = RING_SIZE then L.tail else L) ++ [(k, v)]) := by
  obtain ⟨hidx, hL, hnd, hvals, hring⟩ := hwf
  have hR : RING_SIZE = 40 := rfl
  refine ⟨?_, ?_, ?_, ?_, ?_⟩
  · show (s.idx + 1) % RING_SIZE < RING_SIZE
    exact Nat.mod_lt _ (by omega)
  · split_ifs with hfull
    · simp only [List.length_append, List.length_tail, List.length_cons,
        List.length_nil]
      omega
    · simp only [List.length_append, List.length_cons, List.length_nil]
      omega
  · have htail : ((if L.length = RING_SIZE then L.tail else L) ++ [(k, v)]).map Prod.fst
        = (if L.length = RING_SIZE then L.tail else L).map Prod.fst ++ [k] := by
      simp
    rw [htail, List.nodup_append]
    refine ⟨?_, by simp, ?_⟩
    · split_ifs with hfull
      · rw [List.map_tail]
        exact hnd.sublist (List.tail_sublist _)
      · exact hnd
    · intro x hx
      simp only [List.mem_singleton]
      intro hcon
      subst hcon
      apply hk
      split_ifs at hx with hfull
      · rw [List.map_tail] at hx
        exact List.mem_of_mem_tail hx
      · exact hx
  · intro p hp
    rcases List.mem_append.mp hp with hmem | hmem
    · split_ifs at hmem with hfull
      · exact hvals p (List.mem_of_mem_tail hmem)
      · exact hvals p hmem
    · rw [List.mem_singleton.mp hmem]
      exact hv
  · show s.ring.set s.idx (some (k, v)) = _
    rw [hring]
    exact addToRing_ring_eq L s.idx k v hL hidx

/-! Claim C3: the relocation performed on a getFromRing hit, expressed on
the recency abstraction. -/

theorem ringOf_getElem?_all (L : List (String × String)) (idx : Nat)
    (hL : L.length ≤ RING_SIZE) (hidx : idx < RING_SIZE) :
    ∀ j : Nat, (ringOf L idx)[j]? =
      if j < RING_SIZE then
        (if L.length ≤ idx then
          (if idx - L.length ≤ j ∧ j < idx then (L[j - (idx - L.length)]?).map some
           else some none)
         else
          (if j < idx then (L[(L.length - idx) + j]?).map some
           else if j < idx + (RING_SIZE - L.length) then some none
           else (L[j - idx - (RING_SIZE - L.length)]?).map some))
      else none := by
  intro j
  by_cases hj : j < RING_SIZE
  · rw [if_pos hj]
    exact ringOf_getElem? L idx j hL hidx hj
  · rw [if_neg hj]
    apply List.getElem?_eq_none
    rw [ringOf_length L idx hL hidx]
    omega

theorem newIdx_lt (e idx m : Nat) (he : e ≤ RING_SIZE) (hidx : idx < RING_SIZE)
    (hm : m < e) : newIdx e idx m < RING_SIZE := by
  unfold newIdx hitPos
  simp only [RING_SIZE] at *
  split_ifs <;> omega

theorem hitPos_eq_idx_iff (e idx m : Nat) (he : e ≤ RING_SIZE)
    (hidx : idx < RING_SIZE) (hm : m < e) :
    hitPos e idx m = idx ↔ (e = RING_SIZE ∧ m = 0) := by
  unfold hitPos
  simp only [RING_SIZE] at *
  split_ifs <;> omega

set_option maxHeartbeats 40000000 in
theorem ringHit_ring_eq (L : List (String × String)) (idx m : Nat)
    (kv : String × String) (hidx : idx < RING_SIZE) (hL : L.length ≤ RING_SIZE)
    (hm : m < L.length) (hkv : L[m]? = some kv) :
    ringHit ⟨ringOf L idx, idx⟩ (hitPos L.length idx m) kv =
      ⟨ringOf (promoteIdx L m) (newIdx L.length idx m), newIdx L.length idx m⟩ := by
  have htl : (L[m]?).toList = [kv] := by rw [hkv]; rfl
  have hrlen : (ringOf L idx).length = RING_SIZE := ringOf_length L idx hL hidx
  by_cases hpidx : hitPos L.length idx m = idx
  · -- Hit exactly at the cursor: full ring, least recently used entry.
    obtain ⟨hfull, hm0⟩ :=
      (hitPos_eq_idx_iff L.length idx m hL hidx hm).mp hpidx
    subst hm0
    have hPI : promoteIdx L 0 = L.eraseIdx 0 ++ [kv] := by
      unfold promoteIdx
      rw [if_neg (by omega), htl]
    have hnv : newIdx L.length idx 0 = (idx + 1) % RING_SIZE := by
      unfold newIdx
      rw [if_neg (by omega), if_pos hpidx]
    have hmod : (idx + 1) % RING_SIZE < RING_SIZE :=
      Nat.mod_lt _ (by simp [RING_SIZE])
    have hlenB : (L.eraseIdx 0 ++ [kv]).length = RING_SIZE := by
      rw [List.length_append, List.length_eraseIdx_of_lt (by omega)]
      simp
      omega
    have hlen0 : (L.eraseIdx 0).length = L.length - 1 :=
      List.length_eraseIdx_of_lt (by omega)
    rw [ringHit, if_neg (by simp [hpidx])]
    dsimp only
    rw [hrlen, hnv, hPI]
    refine congrArg₂ RingState.mk ?_ rfl
    apply List.ext_getElem?
    intro t
    rw [ringOf_getElem?_all _ _ (le_of_eq hlenB) hmod t]
    simp only [append_single_getElem?, List.getElem?_eraseIdx, hlenB, hlen0, hkv]
    simp only [RING_SIZE] at *
    split_ifs <;>
      first
        | rfl
        | (exfalso; omega)
        | (simp only [ringOf_getElem?_all L idx hL hidx, RING_SIZE, hkv] <;>
           split_ifs <;>
             first
               | rfl
               | (exfalso; omega)
               | (apply optmap_congr; omega)
               | (exact optmap_eq_of_eq (by omega) hkv)
               | (exact (optmap_eq_of_eq (by omega) hkv).symm)
               | simp)
  · -- Hit away from the cursor: the source relocates the entry.
    rw [ringHit, if_pos (by simp; exact fun hcon => hpidx hcon.symm)]
    dsimp only
    have hplt : hitPos L.length idx m < RING_SIZE := hitPos_lt _ _ _ hL hidx hm
    have hr1len : ((ringOf L idx).set idx (some kv)).length = RING_SIZE := by
      rw [List.length_set, hrlen]
    have hr2len : (((ringOf L idx).set idx (some kv)).eraseIdx
        (hitPos L.length idx m)).length = RING_SIZE - 1 := by
      rw [List.length_eraseIdx_of_lt (by rw [hr1len]; exact hplt), hr1len]
    rw [hr2len]
    have hjv : (if hitPos L.length idx m > idx then (idx + 1) % (RING_SIZE - 1)
        else idx) = newIdx L.length idx m := by
      unfold newIdx
      by_cases hgt : hitPos L.length idx m > idx
      · rw [if_pos hgt, if_neg (by omega), if_neg (by omega)]
      · rw [if_neg hgt, if_pos (by omega)]
    rw [hjv]
    have hnlt : newIdx L.length idx m < RING_SIZE := newIdx_lt _ _ _ hL hidx hm
    have hjle : newIdx L.length idx m ≤ RING_SIZE - 1 := by
      unfold newIdx at *
      unfold hitPos at *
      simp only [RING_SIZE] at *
      split_ifs at * <;> omega
    refine congrArg₂ RingState.mk ?_ rfl
    have hPIlen : (promoteIdx L m).length ≤ RING_SIZE := by
      unfold promoteIdx
      rw [htl]
      split_ifs with hdes
      · rw [List.length_append,
          List.length_eraseIdx_of_lt
            (by rw [List.length_eraseIdx_of_lt (by omega)]; omega),
          List.length_eraseIdx_of_lt (by omega)]
        simp
        omega
      · rw [List.length_append, List.length_eraseIdx_of_lt (by omega)]
        simp
        omega
    apply List.ext_getElem?
    intro t
    rw [insertIdx_getElem? _ _ _ (by rw [hr2len]; exact hjle) t,
      ringOf_getElem?_all (promoteIdx L m) _ hPIlen hnlt t]
    by_cases hD : L.length = RING_SIZE ∧ 0 < m
    · have hPIeq : promoteIdx L m = (L.eraseIdx 0).eraseIdx (m - 1) ++ [kv] := by
        unfold promoteIdx
        rw [if_pos hD, htl]
      have hlen0 : (L.eraseIdx 0).length = L.length - 1 :=
        List.length_eraseIdx_of_lt (by omega)
      have hlen01 : ((L.eraseIdx 0).eraseIdx (m - 1)).length = L.length - 1 - 1 := by
        rw [List.length_eraseIdx_of_lt (by rw [hlen0]; omega), hlen0]
      rw [hPIeq]
      simp only [List.length_append, hlen01, List.length_cons, List.length_nil]
      by_cases hA : L.length ≤ idx
      · exfalso
        simp only [RING_SIZE] at hD hidx
        omega
      · by_cases hB : m < L.length - idx
        · have hhit : hitPos L.length idx m = idx + (RING_SIZE - L.length) + m := by
            unfold hitPos
            rw [if_neg hA, if_pos hB]
          have hpx : idx + (RING_SIZE - L.length) + m ≠ idx := by
            rw [← hhit]
            exact hpidx
          have hnew : newIdx L.length idx m = (idx + 1) % (RING_SIZE - 1) := by
            unfold newIdx
            rw [hhit, if_neg (by omega), if_neg hpx]
          rw [hhit, hnew]
          clear htl hplt hr1len hr2len hjv hnlt hjle hPIlen hpidx hPIeq hhit hnew
          simp only [RING_SIZE] at *
          split_ifs <;>
            first
              | rfl
              | (exfalso; omega)
              | (simp only [List.getElem?_eraseIdx, List.getElem?_set, hrlen, hidx,
                    append_single_getElem?, hlen01, hkv, Nat.not_lt_zero, RING_SIZE,
                    if_true, if_false, ringOf_getElem?_all L idx hL hidx] <;>
                 split_ifs <;>
                   first
                     | rfl
                     | (exfalso; omega)
                     | (apply optmap_congr; omega)
                     | (exact optmap_eq_of_eq (by omega) hkv)
                     | (exact (optmap_eq_of_eq (by omega) hkv).symm)
                     | simp)
        · have hhit : hitPos L.length idx m = m - (L.length - idx) := by
            unfold hitPos
            rw [if_neg hA, if_neg hB]
          have hnew : newIdx L.length idx m = idx := by
            unfold newIdx
            rw [hhit, if_pos (by omega)]
          rw [hhit, hnew]
          clear htl hplt hr1len hr2len hjv hnlt hjle hPIlen hpidx hPIeq hhit hnew
          simp only [RING_SIZE] at *
          split_ifs <;>
            first
              | rfl
              | (exfalso; omega)
              | (simp only [List.getElem?_eraseIdx, List.getElem?_set, hrlen, hidx,
                    append_single_getElem?, hlen01, hkv, Nat.not_lt_zero, RING_SIZE,
                    if_true, if_false, ringOf_getElem?_all L idx hL hidx] <;>
                 split_ifs <;>
                   first
                     | rfl
                     | (exfalso; omega)
                     | (apply optmap_congr; omega)
                     | (exact optmap_eq_of_eq (by omega) hkv)
                     | (exact (optmap_eq_of_eq (by omega) hkv).symm)
                     | simp)
    · have hPIeq : promoteIdx L m = L.eraseIdx m ++ [kv] := by
        unfold promoteIdx
        rw [if_neg hD, htl]
      have hlen01 : (L.eraseIdx m).length = L.length - 1 :=
        List.length_eraseIdx_of_lt hm
      rw [hPIeq]
      simp only [List.length_append, hlen01, List.length_cons, List.length_nil]
      by_cases hA : L.length ≤ idx
      · have hhit : hitPos L.length idx m = idx - L.length + m := by
          unfold hitPos
          rw [if_pos hA]
        have hnew : newIdx L.length idx m = idx := by
          unfold newIdx
          rw [hhit, if_pos (by omega)]
        rw [hhit, hnew]
        clear htl hplt hr1len hr2len hjv hnlt hjle hPIlen hpidx hPIeq hhit hnew
        simp only [RING_SIZE] at *
        split_ifs <;>
          first
            | rfl
            | (exfalso; omega)
            | (simp only [List.getElem?_eraseIdx, List.getElem?_set, hrlen, hidx,
                  append_single_getElem?, hlen01, hkv, Nat.not_lt_zero, RING_SIZE,
                  if_true, if_false, ringOf_getElem?_all L idx hL hidx] <;>
               split_ifs <;>
                 first
                   | rfl
                   | (exfalso; omega)
                   | (apply optmap_congr; omega)
                   | (exact optmap_eq_of_eq (by omega) hkv)
                   | (exact (optmap_eq_of_eq (by omega) hkv).symm)
                   | simp)
      · by_cases hB : m < L.length - idx
        · have hhit : hitPos L.length idx m = idx + (RING_SIZE - L.length) + m := by
            unfold hitPos
            rw [if_neg hA, if_pos hB]
          have hpx : idx + (RING_SIZE - L.length) + m ≠ idx := by
            rw [← hhit]
            exact hpidx
          have hnew : newIdx L.length idx m = (idx + 1) % (RING_SIZE - 1) := by
            unfold newIdx
            rw [hhit, if_neg (by omega), if_neg hpx]
          rw [hhit, hnew]
          clear htl hplt hr1len hr2len hjv hnlt hjle hPIlen hpidx hPIeq hhit hnew
          simp only [RING_SIZE] at *
          split_ifs <;>
            first
              | rfl
              | (exfalso; omega)
              | (simp only [List.getElem?_eraseIdx, List.getElem?_set, hrlen, hidx,
                    append_single_getElem?, hlen01, hkv, Nat.not_lt_zero, RING_SIZE,
                    if_true, if_false, ringOf_getElem?_all L idx hL hidx] <;>
                 split_ifs <;>
                   first
                     | rfl
                     | (exfalso; omega)
                     | (apply optmap_congr; omega)
                     | (exact optmap_eq_of_eq (by omega) hkv)
                     | (exact (optmap_eq_of_eq (by omega) hkv).symm)
                     | simp)
        · have hhit : hitPos L.length idx m = m - (L.length - idx) := by
            unfold hitPos
            rw [if_neg hA, if_neg hB]
          have hnew : newIdx L.length idx m = idx := by
            unfold newIdx
            rw [hhit, if_pos (by omega)]
          rw [hhit, hnew]
          clear htl hplt hr1len hr2len hjv hnlt hjle hPIlen hpidx hPIeq hhit hnew
          simp only [RING_SIZE] at *
          split_ifs <;>
            first
              | rfl
              | (exfalso; omega)
              | (simp only [List.getElem?_eraseIdx, List.getElem?_set, hrlen, hidx,
                    append_single_getElem?, hlen01, hkv, Nat.not_lt_zero, RING_SIZE,
                    if_true, if_false, ringOf_getElem?_all L idx hL hidx] <;>
                 split_ifs <;>
                   first
                     | rfl
                     | (exfalso; omega)
                     | (apply optmap_congr; omega)
                     | (exact optmap_eq_of_eq (by omega) hkv)
                     | (exact (optmap_eq_of_eq (by omega) hkv).symm)
                     | simp)

/-! Claim C3: length, membership and key lemmas for the promoted recency list. -/

theorem promoteIdx_length (L : List (String × String)) (m : Nat)
    (kv : String × String) (hm : m < L.length) (hkv : L[m]? = some kv) :
    (promoteIdx L m).length =
      if L.length = RING_SIZE ∧ 0 < m then L.length - 1 else L.length := by
  have htl : (L[m]?).toList = [kv] := by rw [hkv]; rfl
  unfold promoteIdx
  rw [htl]
  split_ifs with h
  · rw [List.length_append,
      List.length_eraseIdx_of_lt
        (by rw [List.length_eraseIdx_of_lt (by omega)]; omega),
      List.length_eraseIdx_of_lt (by omega)]
    simp
    omega
  · rw [List.length_append, List.length_eraseIdx_of_lt hm]
    simp
    omega

theorem promoteIdx_mem (L : List (String × String)) (m : Nat) (p : String × String)
    (hp : p ∈ promoteIdx L m) : p ∈ L := by
  unfold promoteIdx at hp
  rcases List.mem_append.mp hp with hmem | hmem
  · split_ifs at hmem
    · exact (List.eraseIdx_sublist _ _).subset
        ((List.eraseIdx_sublist _ _).subset hmem)
    · exact (List.eraseIdx_sublist _ _).subset hmem
  · cases hkv : L[m]? with
    | none =>
      rw [hkv] at hmem
      simp at hmem
    | some kv =>
      rw [hkv] at hmem
      have hpkv : p = kv := by simpa using hmem
      rw [hpkv]
      exact List.getElem?_mem hkv

theorem exists_index_of_mem_eraseIdx {A : Type} (l : List A) (n : Nat) (x : A)
    (hx : x ∈ l.eraseIdx n) : ∃ j, j ≠ n ∧ l[j]? = some x := by
  obtain ⟨j, hj⟩ := List.mem_iff_getElem?.mp hx
  rw [List.getElem?_eraseIdx] at hj
  by_cases h : j < n
  · rw [if_pos h] at hj
    exact ⟨j, by omega, hj⟩
  · rw [if_neg h] at hj
    exact ⟨j + 1, by omega, hj⟩

theorem nodup_keys_getElem?_ne (L : List (String × String))
    (hnd : (L.map Prod.fst).Nodup) (j m : Nat) (p kv : String × String)
    (hne : j ≠ m) (hj : L[j]? = some p) (hm : L[m]? = some kv) : p.1 ≠ kv.1 := by
  obtain ⟨hjl, hjp⟩ := List.getElem?_eq_some_iff.mp hj
  obtain ⟨hml, hmp⟩ := List.getElem?_eq_some_iff.mp hm
  have hres := nodup_keys_getElem_ne L hnd j m hjl hml hne
  rw [hjp, hmp] at hres
  exact hres

theorem promoteIdx_keys_nodup (L : List (String × String)) (m : Nat)
    (kv : String × String) (hnd : (L.map Prod.fst).Nodup) (hm : m < L.length)
    (hkv : L[m]? = some kv) : ((promoteIdx L m).map Prod.fst).Nodup := by
  have htl : (L[m]?).toList = [kv] := by rw [hkv]; rfl
  unfold promoteIdx
  rw [htl, List.map_append, List.nodup_append]
  refine ⟨?_, by simp, ?_⟩
  · split_ifs with h
    · exact List.Nodup.sublist
        (List.Sublist.map Prod.fst
          ((List.eraseIdx_sublist _ _).trans (List.eraseIdx_sublist _ _))) hnd
    · exact List.Nodup.sublist
        (List.Sublist.map Prod.fst (List.eraseIdx_sublist _ _)) hnd
  · intro a ha hb
    have hbk : a = kv.1 := by simpa using hb
    subst hbk
    split_ifs at ha with h
    · obtain ⟨p, hpmem, hpk⟩ := List.mem_map.mp ha
      obtain ⟨j, hjne, hj⟩ := exists_index_of_mem_eraseIdx _ _ _ hpmem
      rw [List.getElem?_eraseIdx, if_neg (by omega)] at hj
      exact nodup_keys_getElem?_ne L hnd (j + 1) m p kv (by omega) hj hkv hpk
    · obtain ⟨p, hpmem, hpk⟩ := List.mem_map.mp ha
      obtain ⟨j, hjne, hj⟩ := exists_index_of_mem_eraseIdx _ _ _ hpmem
      exact nodup_keys_getElem?_ne L hnd j m p kv hjne hj hkv hpk

theorem ringOf_slot_key (L : List (String × String)) (idx j : Nat)
    (hL : L.length ≤ RING_SIZE) (hidx : idx < RING_SIZE)
    (kv : String × String) (hj : (ringOf L idx)[j]? = some (some kv)) :
    ∃ m, m < L.length ∧ hitPos L.length idx m = j ∧ L[m]? = some kv := by
  by_cases hjlt : j < RING_SIZE
  · rcases ringOf_slot_cases L idx j hL hidx hjlt with hemp | ⟨m, hm, hpos, heq⟩
    · rw [hemp] at hj
      simp at hj
    · refine ⟨m, hm, hpos, ?_⟩
      rw [heq] at hj
      have h2 := Option.some_inj.mp (Option.some_inj.mp hj)
      rw [List.getElem?_eq_getElem hm]
      exact congrArg some h2
  · exfalso
    rw [List.getElem?_eq_none
      (by rw [ringOf_length L idx hL hidx]; omega)] at hj
    simp at hj

/-! Claim C3: net effect of getFromRing on a well-formed cache state. -/

theorem getFromRing_hit (s : RingState) (L : List (String × String)) (m : Nat)
    (kv : String × String) (hWF : WFRing s L) (hm : m < L.length)
    (hkv : L[m]? = some kv) :
    getFromRing kv.1 s =
      (⟨ringOf (promoteIdx L m) (newIdx L.length s.idx m),
        newIdx L.length s.idx m⟩, some kv.2) ∧
    WFRing (getFromRing kv.1 s).1 (promoteIdx L m) := by
  obtain ⟨hidx, hL, hnd, hvals, hring⟩ := hWF
  have hrlen : s.ring.length = RING_SIZE := by
    rw [hring]
    exact ringOf_length L s.idx hL hidx
  have hplt : hitPos L.length s.idx m < RING_SIZE := hitPos_lt _ _ _ hL hidx hm
  have hslot : s.ring[hitPos L.length s.idx m]? = some (some kv) := by
    rw [hring, ringOf_getElem?_hitPos L s.idx m hL hidx hm, hkv]
    rfl
  have hv2 : kv.2 ≠ "" := hvals kv (List.getElem?_mem hkv)
  have hnm : ∀ j, j < hitPos L.length s.idx m → ∀ p : String × String,
      s.ring[j]? = some (some p) → p.1 ≠ kv.1 := by
    intro j hjp p hj
    rw [hring] at hj
    obtain ⟨mp, hmp, hpos, hget⟩ := ringOf_slot_key L s.idx j hL hidx p hj
    have hne : mp ≠ m := by
      intro hcon
      subst hcon
      omega
    exact nodup_keys_getElem?_ne L hnd mp m p kv hne hget hkv
  have hscan := getGo_scan kv.1 s (hitPos L.length s.idx m) kv
      (by omega) hslot rfl hv2 hnm s.ring.length 0 (by omega) (by omega)
  have hseq : s = ⟨ringOf L s.idx, s.idx⟩ := by
    cases s with
    | mk sr si => exact congrArg₂ RingState.mk hring rfl
  have hres : getFromRing kv.1 s =
      (⟨ringOf (promoteIdx L m) (newIdx L.length s.idx m),
        newIdx L.length s.idx m⟩, some kv.2) := by
    unfold getFromRing
    rw [hscan]
    refine congrArg₂ Prod.mk ?_ rfl
    rw [hseq]
    exact ringHit_ring_eq L s.idx m kv hidx hL hm hkv
  refine ⟨hres, ?_⟩
  rw [hres]
  refine ⟨newIdx_lt _ _ _ hL hidx hm, ?_,
    promoteIdx_keys_nodup L m kv hnd hm hkv, ?_, rfl⟩
  · rw [promoteIdx_length L m kv hm hkv]
    split_ifs <;> omega
  · intro p hp
    exact hvals p (promoteIdx_mem L m p hp)

theorem getFromRing_miss (s : RingState) (L : List (String × String)) (k : String)
    (hWF : WFRing s L) (hk : k ∉ L.map Prod.fst) : getFromRing k s = (s, none) := by
  obtain ⟨hidx, hL, hnd, hvals, hring⟩ := hWF
  have hnm : ∀ j : Nat, ∀ p : String × String,
      s.ring[j]? = some (some p) → p.1 ≠ k := by
    intro j p hj
    rw [hring] at hj
    obtain ⟨mp, hmp, hpos, hget⟩ := ringOf_slot_key L s.idx j hL hidx p hj
    intro hcon
    apply hk
    rw [← hcon]
    exact List.mem_map_of_mem Prod.fst (List.getElem?_mem hget)
  unfold getFromRing
  exact getGo_no_match k s hnm s.ring.length 0

/-! Claim C3: the positional promotion agrees with the by-value promotion when
the stored keys are pairwise distinct, as on every reachable cache state. -/

theorem erase_at_index (L : List (String × String)) (m : Nat)
    (kv : String × String) (hnd : (L.map Prod.fst).Nodup)
    (hkv : L[m]? = some kv) : L.erase kv = L.eraseIdx m := by
  induction L generalizing m with
  | nil => simp at hkv
  | cons a tl ih =>
    cases m with
    | zero =>
      rw [List.getElem?_cons_zero] at hkv
      have ha : a = kv := Option.some_inj.mp hkv
      rw [← ha, List.eraseIdx_zero, List.erase_cons_head]
      rfl
    | succ n =>
      rw [List.getElem?_cons_succ] at hkv
      have hnd2 : (tl.map Prod.fst).Nodup := by
        simp only [List.map_cons, List.nodup_cons] at hnd
        exact hnd.2
      have hmem : kv ∈ tl := List.getElem?_mem hkv
      have hkey : ¬(a == kv) = true := by
        intro hbeq
        have heq : a = kv := eq_of_beq hbeq
        simp only [List.map_cons, List.nodup_cons] at hnd
        exact hnd.1 (by rw [heq]; exact List.mem_map_of_mem Prod.fst hmem)
      rw [List.eraseIdx_cons_succ, List.erase_cons_tail hkey, ih n hnd2 hkv]

theorem promote_eq_promoteIdx (L : List (String × String)) (m : Nat)
    (kv : String × String) (hnd : (L.map Prod.fst).Nodup) (hm : m < L.length)
    (hkv : L[m]? = some kv) : promote L kv = promoteIdx L m := by
  have htl : (L[m]?).toList = [kv] := by rw [hkv]; rfl
  unfold promote promoteIdx
  rw [htl]
  by_cases hm0 : m = 0
  · subst hm0
    have hhead : L.head? = some kv := by
      rw [List.head?_eq_getElem?]
      exact hkv
    rw [if_neg (by simp [hhead]), if_neg (by simp)]
    rw [erase_at_index L 0 kv hnd hkv]
  · have h0 : 0 < m := by omega
    have hne0 : L.head? ≠ some kv := by
      rw [List.head?_eq_getElem?]
      intro hcon
      exact nodup_keys_getElem?_ne L hnd 0 m kv kv (by omega) hcon hkv rfl
    by_cases hfull : L.length = RING_SIZE
    · rw [if_pos ⟨hfull, hne0⟩, if_pos ⟨hfull, h0⟩]
      have hnd2 : ((L.eraseIdx 0).map Prod.fst).Nodup :=
        List.Nodup.sublist
          (List.Sublist.map Prod.fst (List.eraseIdx_sublist _ _)) hnd
      have hget2 : (L.eraseIdx 0)[m - 1]? = some kv := by
        rw [List.getElem?_eraseIdx, if_neg (by omega)]
        have hm1 : m - 1 + 1 = m := by omega
        rw [hm1, hkv]
      rw [show L.tail = L.eraseIdx 0 from (List.eraseIdx_zero L).symm]
      rw [erase_at_index (L.eraseIdx 0) (m - 1) kv hnd2 hget2]
    · rw [if_neg (by simp [hfull]), if_neg (by simp [hfull])]
      rw [erase_at_index L m kv hnd hkv]

/-- C3 (corrected): on a well-formed cache state holding the recency list L
(least recently used first), getFromRing on a stored key k returns the stored
value and leaves a well-formed state whose recency list is promote L (k, v):
the entry moves to the most-recently-used end, and when the ring is full and
the entry was not already the least recently used one, the relocation
destroys the least-recently-used entry instead of keeping it.  getFromRing on
an absent key leaves the state untouched and returns undefined, and addToRing
of a fresh key writes over the cursor slot, evicting exactly the least
recently used entry when the ring is full.  The structure is therefore an
LRU-ordered ring whose put evicts LRU, but whose get hit is destructive
rather than a pure LRU promotion. -/
theorem ring_destructive_lru_contract (s : RingState) (L : List (String × String))
    (hWF : WFRing s L) :
    (∀ m : Nat, ∀ k v : String, L[m]? = some (k, v) →
      (getFromRing k s).2 = some v ∧
      WFRing (getFromRing k s).1 (promote L (k, v))) ∧
    (∀ k : String, k ∉ L.map Prod.fst → getFromRing k s = (s, none)) ∧
    (∀ k v : String, k ∉ L.map Prod.fst → v ≠ "" →
      WFRing (addToRing k v s)
        ((if L.length = RING_SIZE then L.tail else L) ++ [(k, v)])) := by
  have hnd : (L.map Prod.fst).Nodup := by
    obtain ⟨h1, h2, h3, h4, h5⟩ := hWF
    exact h3
  refine ⟨?_, ?_, ?_⟩
  · intro m k v hkv
    have hm : m < L.length := by
      rcases Nat.lt_or_ge m L.length with h | h
      · exact h
      · rw [List.getElem?_eq_none h] at hkv
        simp at hkv
    obtain ⟨hfst, hwf2⟩ := getFromRing_hit s L m (k, v) hWF hm hkv
    dsimp only at hfst hwf2
    constructor
    · rw [hfst]
    · rw [promote_eq_promoteIdx L m (k, v) hnd hm hkv]
      exact hwf2
  · intro k hk
    exact getFromRing_miss s L k hWF hk
  · intro k v hk hv
    exact addToRing_WF s L k v hWF hk hv

/-- Witness for C3: the contract applied to a concrete one-entry cache with
the cursor at slot 1: a hit on the stored key, a miss on a fresh key, and an
insertion of a fresh key. -/
theorem ring_destructive_lru_contract_witness :
    ((getFromRing "a" ⟨ringOf [("a", "1")] 1, 1⟩).2 = some "1" ∧
      WFRing (getFromRing "a" ⟨ringOf [("a", "1")] 1, 1⟩).1
        (promote [("a", "1")] ("a", "1"))) ∧
    getFromRing "b" ⟨ringOf [("a", "1")] 1, 1⟩ = (⟨ringOf [("a", "1")] 1, 1⟩, none) ∧
    WFRing (addToRing "b" "2" ⟨ringOf [("a", "1")] 1, 1⟩) [("a", "1"), ("b", "2")] :=
  ⟨(ring_destructive_lru_contract ⟨ringOf [("a", "1")] 1, 1⟩ [("a", "1")]
      ⟨by decide, by decide, by decide, by decide, rfl⟩).1 0 "a" "1" (by decide),
   (ring_destructive_lru_contract ⟨ringOf [("a", "1")] 1, 1⟩ [("a", "1")]
      ⟨by decide, by decide, by decide, by decide, rfl⟩).2.1 "b" (by decide),
   (ring_destructive_lru_contract ⟨ringOf [("a", "1")] 1, 1⟩ [("a", "1")]
      ⟨by decide, by decide, by decide, by decide, rfl⟩).2.2 "b" "2"
      (by decide) (by decide)⟩

set_option maxRecDepth 100000 in
/-- Counterexample to the LRU reading of C3: after filling the ring with the
forty keys k0 .. k39, a getFromRing hit on "k5" destroys the entry "k0" (the
least recently used one), so "k0" is no longer retrievable, although the
reference LRU cache keeps "k0" retrievable after the same two operations. -/
theorem ring_get_destroys_lru_entry :
    (getFromRing "k5" ringAfter40Puts).2 = some "v5" ∧
    (getFromRing "k0" (getFromRing "k5" ringAfter40Puts).1).2 = none ∧
    (lruSpecGet lruAfter40Puts "k5").2 = some "v5" ∧
    (lruSpecGet (lruSpecGet lruAfter40Puts "k5").1 "k0").2 = some "v0" := by
  decide

end Tecendil
